import Mathlib

set_option maxRecDepth 200000

/-!
Verification of the shallot JSON codec (serializer and deserializer).

Strings are modelled as lists of Unicode characters (`Str`).  Rust byte
indexing into `&str` is modelled by `byteSplit`, which fails (yielding the
`panic` outcome) when the requested byte index is not a character boundary,
exactly as Rust's slice operator panics there.  The deserializer's interior
mutable cursor (`Cell<usize>` row and column) is modelled by explicit state
passing of a `Pos` value; every function below is a direct transcription of
the corresponding Rust function in `src/deserialize/json.rs` or
`src/serialize/json.rs`.
-/

namespace Shallot

/-- Characters of a Rust `&str`, in order. -/
abbrev Str := List Char

/-- Convert a Lean string literal to the `Str` model. -/
def s2l (s : String) : Str := s.data

/-- Parse cursor: current row and column, both 1-indexed at construction. -/
structure Pos where
  row : Nat
  col : Nat
  deriving Repr, DecidableEq

/-- Cursor state of a freshly constructed `Json` deserializer (`Json::new`). -/
def pos0 : Pos := ⟨1, 1⟩

/-- Structured content of the library error values.  `synErr` models a
`Syntax` error (row, col, optional expected text, optional unexpected text);
`ovfErr` models an `Overflow` error (row, col, optional type name). -/
inductive Err where
  | synErr (row col : Nat) (expected : Option Str) (unexpected : Option Str)
  | ovfErr (row col : Nat) (kind : Option Str)
  deriving Repr, DecidableEq

/-- Whether an error value is a Syntax error (as opposed to Overflow). -/
def Err.isSyntax : Err → Bool
  | .synErr _ _ _ _ => true
  | .ovfErr _ _ _ => false

/-- Outcome of a deserializer operation: a value, a library error, or a Rust
panic (out-of-bounds or non-boundary byte slice). -/
inductive PRes (α : Type) where
  | ok (a : α)
  | err (e : Err)
  | panic
  deriving Repr

instance {α : Type} [DecidableEq α] : DecidableEq (PRes α) := fun a b =>
  match a, b with
  | .ok x, .ok y =>
    if h : x = y then isTrue (by rw [h])
    else isFalse (by intro hc; cases hc; exact h rfl)
  | .err x, .err y =>
    if h : x = y then isTrue (by rw [h])
    else isFalse (by intro hc; cases hc; exact h rfl)
  | .panic, .panic => isTrue rfl
  | .ok _, .err _ => isFalse (by intro hc; cases hc)
  | .ok _, .panic => isFalse (by intro hc; cases hc)
  | .err _, .ok _ => isFalse (by intro hc; cases hc)
  | .err _, .panic => isFalse (by intro hc; cases hc)
  | .panic, .ok _ => isFalse (by intro hc; cases hc)
  | .panic, .err _ => isFalse (by intro hc; cases hc)

/-- Sequence a stateful operation with a continuation, propagating errors
and panics (the model of Rust `?` on `Result`, plus panic propagation). -/
def pthen {α β : Type} (x : Pos × PRes α) (f : Pos → α → Pos × PRes β) :
    Pos × PRes β :=
  match x with
  | (p, .ok a) => f p a
  | (p, .err e) => (p, .err e)
  | (p, .panic) => (p, .panic)

/-- Unicode `White_Space` test, the semantics of Rust `char::is_whitespace`. -/
def rustIsWhitespace (c : Char) : Bool :=
  let n := c.toNat
  n == 0x9 || n == 0xA || n == 0xB || n == 0xC || n == 0xD || n == 0x20 ||
  n == 0x85 || n == 0xA0 || n == 0x1680 || (0x2000 ≤ n && n ≤ 0x200A) ||
  n == 0x2028 || n == 0x2029 || n == 0x202F || n == 0x205F || n == 0x3000

/-- ASCII decimal digit test. -/
def isDigitCh (c : Char) : Bool := '0' ≤ c && c ≤ '9'

/-- Numeric value of an ASCII digit character (Rust `char::to_digit`). -/
def dval (c : Char) : Nat := c.toNat - 48

/-- Total UTF-8 byte length of a string. -/
def utf8Len (s : Str) : Nat := (s.map Char.utf8Size).sum

/-- Split a string at a byte index, as Rust `(&s[..i], &s[i..])` does:
`none` when the index is past the end or not on a character boundary (the
situations in which Rust panics). -/
def byteSplit (s : Str) (i : Nat) : Option (Str × Str) :=
  if i = 0 then some ([], s)
  else
    match s with
    | [] => none
    | c :: cs =>
      if c.utf8Size ≤ i then
        match byteSplit cs (i - c.utf8Size) with
        | some (a, b) => some (c :: a, b)
        | none => none
      else none

/-- Rust `str::split('\n')`: the list of newline-separated segments; always
non-empty, with an empty final segment when the input ends in a newline. -/
def splitNl : Str → List Str
  | [] => [[]]
  | c :: cs =>
    match splitNl cs with
    | [] => [[]]
    | h :: t => if c = '\n' then [] :: h :: t else (c :: h) :: t

/-- Strip a leading pattern from a string (`str::strip_prefix`): the
remainder when the pattern leads the string, `none` otherwise. -/
def stripPre : Str → Str → Option Str
  | s, [] => some s
  | [], _ :: _ => none
  | c :: cs, d :: ds => if c = d then stripPre cs ds else none

/-- Rust `str::trim`: drop Unicode whitespace from both ends. -/
def rustTrim (s : Str) : Str :=
  ((s.dropWhile rustIsWhitespace).reverse.dropWhile rustIsWhitespace).reverse

/-- Json::consume_all — advance the cursor over the whole text: with an
embedded newline the row advances by the newline count and the column is set
to the byte length of the text after the last newline; otherwise the column
advances by the byte length of the text. -/
def consume_all (p : Pos) (s : Str) : Pos :=
  let parts := splitNl s
  if parts.length > 1 then
    { row := p.row + (parts.length - 1), col := utf8Len (parts.getLast?.getD []) }
  else
    { p with col := p.col + utf8Len (parts.getLast?.getD []) }

/-- Scanning loop of Json::consume_whitespace: advance the cursor over
leading whitespace characters (newline: next row, column 1; other
whitespace: next column) and report the index of the first
non-whitespace character, if any. -/
def cwLoop (p : Pos) (s : Str) (n : Nat) : Pos × Option Nat :=
  match s with
  | [] => (p, none)
  | c :: cs =>
    if c = '\n' then cwLoop ⟨p.row + 1, 1⟩ cs (n + 1)
    else if rustIsWhitespace c then cwLoop ⟨p.row, p.col + 1⟩ cs (n + 1)
    else (p, some n)

/-- Json::consume_whitespace — split the input at the first non-whitespace
character, slicing at the character-enumeration index used as a byte index
(a panic when that is not a character boundary). -/
def consume_whitespace (p : Pos) (s : Str) : Pos × PRes (Str × Str) :=
  match cwLoop p s 0 with
  | (p', none) => (p', .ok (s, []))
  | (p', some f) =>
    match byteSplit s f with
    | some ab => (p', .ok ab)
    | none => (p', .panic)

/-- Json::take_expected — require the input to start with the expected text;
on failure a Syntax error carrying the first input character (if any) as
unexpected and the expected text. -/
def take_expected (p : Pos) (s expected : Str) : Pos × PRes (Str × Str) :=
  match stripPre s expected with
  | some rest => (p, .ok (expected, rest))
  | none =>
    match s.head? with
    | some f => (p, .err (.synErr p.row p.col (some expected) (some [f])))
    | none => (p, .err (.synErr p.row p.col (some expected) none))

/-- Json::consume_expected — take_expected, then consume the expected text. -/
def consume_expected (p : Pos) (s expected : Str) : Pos × PRes (Str × Str) :=
  pthen (take_expected p s expected) fun p1 taken =>
    (consume_all p1 taken.1, .ok taken)

/-- Scanning loop of Json::take_until: the index of the first occurrence of
the delimiter that is neither inside an unescaped quote nor (for a quote
delimiter) preceded by an unescaped backslash. -/
def tuLoop (u : Char) : Str → Nat → Bool → Bool → Option Nat
  | [], _, _, _ => none
  | c :: cs, n, quote, backslash =>
    if !(quote || (u = '"' && backslash)) && c = u then some n
    else if c = '"' && !backslash then tuLoop u cs (n + 1) (!quote) false
    else if c = '\\' && !backslash then tuLoop u cs (n + 1) quote true
    else tuLoop u cs (n + 1) quote false

/-- Json::take_until — split the input before the first unquoted, unescaped
delimiter (slicing at the enumeration index used as a byte index); when the
delimiter is absent, consume the whole input and report a Syntax error
carrying the last character (if any) and the delimiter. -/
def take_until (p : Pos) (s : Str) (u : Char) : Pos × PRes (Str × Str) :=
  match tuLoop u s 0 false false with
  | some n =>
    match byteSplit s n with
    | some ab => (p, .ok ab)
    | none => (p, .panic)
  | none =>
    let p' := consume_all p s
    match s.getLast? with
    | some f => (p', .err (.synErr p'.row p'.col (some [u]) (some [f])))
    | none => (p', .err (.synErr p'.row p'.col (some [u]) none))

/-- Json::consume_until — take_until, then consume the scanned text. -/
def consume_until (p : Pos) (s : Str) (u : Char) : Pos × PRes (Str × Str) :=
  pthen (take_until p s u) fun p1 taken =>
    (consume_all p1 taken.1, .ok taken)

/-- Rust `str::replace` specialised to a two-character pattern replaced by a
single character: left-to-right, skipping over each replacement. -/
def unescapePair (a b r : Char) : Str → Str
  | [] => []
  | [c] => [c]
  | c :: d :: rest =>
    if c = a && d = b then r :: unescapePair a b r rest
    else c :: unescapePair a b r (d :: rest)

/-- Json::decode_string — strip the leading quote, scan to the closing
unescaped quote, then unescape backslash-quote to quote followed by
backslash-backslash to backslash, in that order. -/
def decode_string (p : Pos) (s : Str) : Pos × PRes Str :=
  pthen (take_expected p s (s2l "\"")) fun p1 taken =>
  pthen (take_until p1 taken.2 '"') fun p2 taken2 =>
    (p2, .ok (unescapePair '\\' '\\' '\\' (unescapePair '\\' '"' '"' taken2.1)))

/-- Scanning loop of Json::syntax_error_number: digits advance the column; a
minus advances only as the very first character and only when the type name
does not start with a `u`; a dot advances at most once and only when the
type name starts with an `f`; the first other character (whitespace
included) is reported as unexpected at the column reached; when the whole
input is consumed the error instead carries the type name as expected. -/
def senLoop (kind : Str) (p : Pos) (first dot : Bool) : Str → Pos × Err
  | [] => (p, .synErr p.row p.col (some kind) none)
  | c :: cs =>
    if isDigitCh c then senLoop kind ⟨p.row, p.col + 1⟩ false dot cs
    else if c = '-' && first && !(kind.head? = some 'u') then
      senLoop kind ⟨p.row, p.col + 1⟩ false dot cs
    else if c = '.' && !dot && (kind.head? = some 'f') then
      senLoop kind ⟨p.row, p.col + 1⟩ false true cs
    else if rustIsWhitespace c then (p, .synErr p.row p.col none (some [c]))
    else (p, .synErr p.row p.col none (some [c]))

/-- Json::syntax_error_number — re-scan the trimmed numeric input to locate
and report the offending character. -/
def syntax_error_number (p : Pos) (input kind : Str) : Pos × Err :=
  senLoop kind p true false input

/-- Error kinds of Rust `ParseIntError` relevant to decimal parsing. -/
inductive IntErr where
  | empty
  | invalidDigit
  | posOverflow
  | negOverflow
  deriving Repr, DecidableEq

/-- Json::convert_int_error — map a Rust integer-parse error to a library
error: empty input becomes a Syntax error expecting the type name, an
invalid digit is re-scanned by syntax_error_number, and overflow in either
direction becomes an Overflow error carrying the type name. -/
def convert_int_error (p : Pos) (e : IntErr) (input kind : Str) : Pos × Err :=
  match e with
  | .empty => (p, .synErr p.row p.col (some kind) none)
  | .invalidDigit => syntax_error_number p input kind
  | .posOverflow => (p, .ovfErr p.row p.col (some kind))
  | .negOverflow => (p, .ovfErr p.row p.col (some kind))

/-- Digit-accumulation loop of Rust `from_str_radix` for a non-negative
result: multiply and add each digit, failing at the first non-digit or at
the first step that exceeds the type's upper bound. -/
def ppLoop (hi : Int) (acc : Int) : Str → Except IntErr Int
  | [] => .ok acc
  | c :: cs =>
    if isDigitCh c then
      if acc * 10 + (dval c : Int) > hi then .error .posOverflow
      else ppLoop hi (acc * 10 + (dval c : Int)) cs
    else .error .invalidDigit

/-- Digit-accumulation loop of Rust `from_str_radix` for a negative result:
multiply and subtract each digit, failing below the type's lower bound. -/
def pnLoop (lo : Int) (acc : Int) : Str → Except IntErr Int
  | [] => .ok acc
  | c :: cs =>
    if isDigitCh c then
      if acc * 10 - (dval c : Int) < lo then .error .negOverflow
      else pnLoop lo (acc * 10 - (dval c : Int)) cs
    else .error .invalidDigit

/-- Rust `str::parse` for an integer type with bounds `lo..=hi` (radix 10):
empty input fails with Empty; a bare sign fails with InvalidDigit; a minus
sign is honoured only for signed types; then the digit loop runs. -/
def rustParseInt (signed : Bool) (lo hi : Int) (s : Str) : Except IntErr Int :=
  match s with
  | [] => .error .empty
  | c :: rest =>
    if (c = '+' || c = '-') && rest = [] then .error .invalidDigit
    else if c = '+' then ppLoop hi 0 rest
    else if c = '-' && signed then pnLoop lo 0 rest
    else ppLoop hi 0 (c :: rest)

/-- The twelve integer types supported by the codec; the pointer-sized
types are modelled at 64 bits. -/
inductive IntKind where
  | i8 | i16 | i32 | i64 | i128 | isize
  | u8 | u16 | u32 | u64 | u128 | usize
  deriving Repr, DecidableEq

/-- Whether the integer type is signed. -/
def IntKind.signed : IntKind → Bool
  | .i8 | .i16 | .i32 | .i64 | .i128 | .isize => true
  | _ => false

/-- Lower bound of the integer type. -/
def IntKind.lo : IntKind → Int
  | .i8 => -(2 ^ 7)
  | .i16 => -(2 ^ 15)
  | .i32 => -(2 ^ 31)
  | .i64 => -(2 ^ 63)
  | .i128 => -(2 ^ 127)
  | .isize => -(2 ^ 63)
  | _ => 0

/-- Upper bound of the integer type. -/
def IntKind.hi : IntKind → Int
  | .i8 => 2 ^ 7 - 1
  | .i16 => 2 ^ 15 - 1
  | .i32 => 2 ^ 31 - 1
  | .i64 => 2 ^ 63 - 1
  | .i128 => 2 ^ 127 - 1
  | .isize => 2 ^ 63 - 1
  | .u8 => 2 ^ 8 - 1
  | .u16 => 2 ^ 16 - 1
  | .u32 => 2 ^ 32 - 1
  | .u64 => 2 ^ 64 - 1
  | .u128 => 2 ^ 128 - 1
  | .usize => 2 ^ 64 - 1

/-- Type name passed by the visit methods to the error constructors. -/
def IntKind.name : IntKind → Str
  | .i8 => s2l "i8"
  | .i16 => s2l "i16"
  | .i32 => s2l "i32"
  | .i64 => s2l "i64"
  | .i128 => s2l "i128"
  | .isize => s2l "isize"
  | .u8 => s2l "u8"
  | .u16 => s2l "u16"
  | .u32 => s2l "u32"
  | .u64 => s2l "u64"
  | .u128 => s2l "u128"
  | .usize => s2l "usize"

/-- Decimal digits of a natural number, most significant first
(accumulator-style, the canonical base-10 text of Rust `to_string`); the
fuel argument only drives structural recursion and is immaterial whenever
it is at least the value being printed. -/
def natToStrAux : Nat → Nat → Str → Str
  | 0, _, acc => acc
  | f + 1, n, acc =>
    if n = 0 then acc
    else natToStrAux f (n / 10) (Char.ofNat (48 + n % 10) :: acc)

/-- Canonical decimal text of a natural number. -/
def natToString (n : Nat) : Str := if n = 0 then ['0'] else natToStrAux n n []

/-- Canonical decimal text of an integer (leading minus for negatives), the
output of Rust integer `to_string`. -/
def intToString (i : Int) : Str :=
  if i < 0 then '-' :: natToString i.natAbs else natToString i.natAbs

/-- The shared body of Json::visit_i8 .. Json::visit_usize, which differ
only in the target type: skip leading whitespace, parse the trimmed
remainder with the native integer parse, convert errors, and on success
consume the remainder. -/
def visit_int (k : IntKind) (p : Pos) (input : Str) : Pos × PRes Int :=
  pthen (consume_whitespace p input) fun p1 pr =>
    let trim := pr.2
    match rustParseInt k.signed k.lo k.hi (rustTrim trim) with
    | .ok v => (consume_all p1 trim, .ok v)
    | .error e =>
      let (p2, err) := convert_int_error p1 e (rustTrim trim) k.name
      (p2, .err err)

/-- Json::visit_unit — trim, require the literal `null`, else a Syntax
error carrying the whole original input as unexpected. -/
def visit_unit (p : Pos) (input : Str) : Pos × PRes Unit :=
  pthen (consume_whitespace p input) fun p1 pr =>
    let trim := pr.2
    if rustTrim trim = s2l "null" then (consume_all p1 trim, .ok ())
    else (p1, .err (.synErr p1.row p1.col (some (s2l "null")) (some input)))

/-- Json::visit_bool — trim, require `true` or `false`, else a Syntax error
carrying the whole original input as unexpected. -/
def visit_bool (p : Pos) (input : Str) : Pos × PRes Bool :=
  pthen (consume_whitespace p input) fun p1 pr =>
    let trim := pr.2
    if rustTrim trim = s2l "true" then (consume_all p1 trim, .ok true)
    else if rustTrim trim = s2l "false" then (consume_all p1 trim, .ok false)
    else (p1, .err (.synErr p1.row p1.col (some (s2l "bool")) (some input)))

/-- Json::visit_char — decode the quoted text; more than one byte is a char
Overflow, an empty text is a Syntax error one column to the right; then
re-consume the quoted region and reject trailing non-whitespace. -/
def visit_char (p : Pos) (input : Str) : Pos × PRes Char :=
  pthen (consume_whitespace p input) fun p1 pr =>
    let trim := pr.2
    pthen (decode_string p1 (rustTrim trim)) fun p2 str =>
      if utf8Len str > 1 then
        (p2, .err (.ovfErr p2.row p2.col (some (s2l "char"))))
      else
        match str.head? with
        | none => (p2, .err (.synErr p2.row (p2.col + 1) none (some (s2l "\""))))
        | some result =>
          pthen (consume_expected p2 trim (s2l "\"")) fun p3 t1 =>
          pthen (consume_until p3 t1.2 '"') fun p4 t2 =>
          pthen (consume_expected p4 t2.2 (s2l "\"")) fun p5 t3 =>
          pthen (consume_whitespace p5 t3.2) fun p6 t4 =>
            match t4.2.head? with
            | some c => (p6, .err (.synErr p6.row p6.col none (some [c])))
            | none => (p6, .ok result)

/-- Json::visit_string — decode the quoted text, re-consume the quoted
region, and reject trailing non-whitespace. -/
def visit_string (p : Pos) (input : Str) : Pos × PRes Str :=
  pthen (consume_whitespace p input) fun p1 pr =>
    let trim := pr.2
    pthen (decode_string p1 (rustTrim trim)) fun p2 str =>
      pthen (consume_expected p2 trim (s2l "\"")) fun p3 t1 =>
      pthen (consume_until p3 t1.2 '"') fun p4 t2 =>
      pthen (consume_expected p4 t2.2 (s2l "\"")) fun p5 t3 =>
      pthen (consume_whitespace p5 t3.2) fun p6 t4 =>
        match t4.2.head? with
        | some c => (p6, .err (.synErr p6.row p6.col none (some [c])))
        | none => (p6, .ok str)

/-- Value of a list of decimal digits, most significant first. -/
def digitsVal (ds : Str) : Nat := ds.foldl (fun a c => a * 10 + dval c) 0

/-- Exact value of a decimal text as mantissa times a power of ten; the
represented rational is `man * 10 ^ exp`. -/
structure DecVal where
  man : Int
  exp : Int
  deriving Repr, DecidableEq

/-- Rational value represented by a `DecVal`. -/
def DecVal.toQ (d : DecVal) : ℚ := (d.man : ℚ) * (10 : ℚ) ^ d.exp

/-- Whether the represented value is at least the given integer bound
(exact integer comparison, clearing the power-of-ten denominator). -/
def DecVal.geInt (d : DecVal) (bound : Int) : Bool :=
  if 0 ≤ d.exp then bound ≤ d.man * ((10 ^ d.exp.toNat : Nat) : Int)
  else bound * ((10 ^ (-d.exp).toNat : Nat) : Int) ≤ d.man

/-- Whether the represented value is at most the given integer bound. -/
def DecVal.leInt (d : DecVal) (bound : Int) : Bool :=
  if 0 ≤ d.exp then d.man * ((10 ^ d.exp.toNat : Nat) : Int) ≤ bound
  else d.man ≤ bound * ((10 ^ (-d.exp).toNat : Nat) : Int)

/-- Result of Rust float parsing, to the fidelity the claims need: `fin`
carries the exact decimal value of the text (decimal-to-binary rounding of
in-range values is not modelled, and no claim depends on a finite float's
numeric value); out-of-range magnitudes are infinities, the documented
saturating behaviour of Rust's float parse. -/
inductive Flt where
  | fin (d : DecVal)
  | inf
  | neginf
  deriving Repr, DecidableEq

/-- Whether the float value is finite (Rust `is_finite`). -/
def Flt.isFinite : Flt → Bool
  | .fin _ => true
  | _ => false

/-- Optional exponent suffix of a decimal float: empty text means exponent
zero; otherwise `e`/`E`, an optional sign, and at least one digit. -/
def parseExpPart (s : Str) : Option Int :=
  match s with
  | [] => some 0
  | e :: rest =>
    if e = 'e' || e = 'E' then
      match rest with
      | '+' :: ds => if ds ≠ [] && ds.all isDigitCh then some (digitsVal ds) else none
      | '-' :: ds => if ds ≠ [] && ds.all isDigitCh then some (-(digitsVal ds : Int)) else none
      | ds => if ds ≠ [] && ds.all isDigitCh then some (digitsVal ds) else none
    else none

/-- Unsigned core of the decimal float grammar: digits with an optional
single dot (at least one digit overall), then an optional exponent. -/
def pdCore (t : Str) : Option DecVal :=
  let ip := t.takeWhile isDigitCh
  let r1 := t.dropWhile isDigitCh
  match r1 with
  | '.' :: r2 =>
    let fp := r2.takeWhile isDigitCh
    let r3 := r2.dropWhile isDigitCh
    if ip = [] && fp = [] then none
    else
      (parseExpPart r3).map fun e =>
        ⟨(digitsVal (ip ++ fp) : Int), e - fp.length⟩
  | r2 =>
    if ip = [] then none
    else (parseExpPart r2).map fun e => ⟨(digitsVal ip : Int), e⟩

/-- Exact value of a decimal float text: optional sign, then the unsigned
core.  The `inf`/`NaN` word forms accepted by Rust are not modelled (no
claim exercises them). -/
def parseDecimal (s : Str) : Option DecVal :=
  match s with
  | '+' :: rest => pdCore rest
  | '-' :: rest => (pdCore rest).map fun d => ⟨-d.man, d.exp⟩
  | rest => pdCore rest

/-- Magnitude from which IEEE-754 round-to-nearest sends a decimal value to
f32 infinity: the midpoint between f32::MAX (2^128 - 2^104) and 2^128. -/
def f32Threshold : Int := ((2 ^ 128 - 2 ^ 103 : Nat) : Int)

/-- Magnitude from which IEEE-754 round-to-nearest sends a decimal value to
f64 infinity: the midpoint between f64::MAX (2^1024 - 2^971) and 2^1024. -/
def f64Threshold : Int := ((2 ^ 1024 - 2 ^ 970 : Nat) : Int)

/-- Rust `str::parse::<f32>` on decimal forms: correctly-rounded, with
values at or beyond the overflow threshold saturating to infinity. -/
def rustParseF32 (s : Str) : Except Unit Flt :=
  match parseDecimal s with
  | none => .error ()
  | some d =>
    .ok (if d.geInt f32Threshold then .inf
         else if d.leInt (-f32Threshold) then .neginf else .fin d)

/-- Rust `str::parse::<f64>` on decimal forms: correctly-rounded, with
values at or beyond the overflow threshold saturating to infinity. -/
def rustParseF64 (s : Str) : Except Unit Flt :=
  match parseDecimal s with
  | none => .error ()
  | some d =>
    .ok (if d.geInt f64Threshold then .inf
         else if d.leInt (-f64Threshold) then .neginf else .fin d)

/-- Json::visit_f32 — trim, parse with the native float parse (errors are
re-scanned by syntax_error_number), reject non-finite results with an
Overflow error, and on success consume the remainder. -/
def visit_f32 (p : Pos) (input : Str) : Pos × PRes Flt :=
  pthen (consume_whitespace p input) fun p1 pr =>
    let trim := pr.2
    match rustParseF32 (rustTrim trim) with
    | .error _ =>
      let (p2, err) := syntax_error_number p1 (rustTrim trim) (s2l "f32")
      (p2, .err err)
    | .ok v =>
      if !v.isFinite then (p1, .err (.ovfErr p1.row p1.col (some (s2l "f32"))))
      else (consume_all p1 trim, .ok v)

/-- Json::visit_f64 — as visit_f32 at 64 bits. -/
def visit_f64 (p : Pos) (input : Str) : Pos × PRes Flt :=
  pthen (consume_whitespace p input) fun p1 pr =>
    let trim := pr.2
    match rustParseF64 (rustTrim trim) with
    | .error _ =>
      let (p2, err) := syntax_error_number p1 (rustTrim trim) (s2l "f64")
      (p2, .err err)
    | .ok v =>
      if !v.isFinite then (p1, .err (.ovfErr p1.row p1.col (some (s2l "f64"))))
      else (consume_all p1 trim, .ok v)

/-- Fixed-width decimal rendering: the low `k` digits of `m`, most
significant first, zero-padded on the left — the fraction part of a
float's positional decimal text. -/
def natToPad : Nat → Nat → Str
  | 0, _ => []
  | k + 1, m => natToPad k (m / 10) ++ [Char.ofNat (48 + m % 10)]

/-- Rust float `to_string` (serializer Json::visit_f32/visit_f64), at the
embedding's fidelity.  Display prints, in plain positional notation (float
Display never uses exponent notation), the shortest decimal text that
re-parses to the float; a finite float is carried in this embedding as its
exact decimal value, so a non-negative exponent renders as the integer
text and a negative exponent as the integer part, a dot, and the
zero-padded fraction digits.  On a mantissa/exponent pair in lowest form —
as every representative value used is — this is exactly the Display
text. -/
def fltToString (d : DecVal) : Str :=
  if 0 ≤ d.exp then intToString (d.man * ((10 ^ d.exp.toNat : Nat) : Int))
  else
    (if d.man < 0 then ['-'] else []) ++
      natToString (d.man.natAbs / 10 ^ (-d.exp).toNat) ++
      '.' :: natToPad (-d.exp).toNat (d.man.natAbs % 10 ^ (-d.exp).toNat)

/-- The exact decimal value `parseDecimal` reads back from `fltToString`:
a non-negative exponent is folded into the mantissa, a negative one is
kept as the fraction length. -/
def decRead (d : DecVal) : DecVal :=
  if 0 ≤ d.exp then ⟨d.man * ((10 ^ d.exp.toNat : Nat) : Int), 0⟩ else d

/-- Shapes of the primitive (non-tuple) values the embedding covers. -/
inductive PrimTy where
  | tUnit
  | tBool
  | tInt (k : IntKind)
  | tChar
  | tString
  deriving Repr, DecidableEq

/-- Primitive values, tagged with their shape. -/
inductive PrimVal where
  | vUnit
  | vBool (b : Bool)
  | vInt (k : IntKind) (v : Int)
  | vChar (c : Char)
  | vString (s : Str)
  deriving Repr, DecidableEq

/-- Shape of a primitive value. -/
def PrimVal.ty : PrimVal → PrimTy
  | .vUnit => .tUnit
  | .vBool _ => .tBool
  | .vInt k _ => .tInt k
  | .vChar _ => .tChar
  | .vString _ => .tString

/-- Dispatch of `Deserialize::accept` for the primitive types: each type
forwards to its matching visit method. -/
def deserializePrim (t : PrimTy) (p : Pos) (input : Str) : Pos × PRes PrimVal :=
  match t with
  | .tUnit => pthen (visit_unit p input) fun p' _ => (p', .ok .vUnit)
  | .tBool => pthen (visit_bool p input) fun p' b => (p', .ok (.vBool b))
  | .tInt k => pthen (visit_int k p input) fun p' v => (p', .ok (.vInt k v))
  | .tChar => pthen (visit_char p input) fun p' c => (p', .ok (.vChar c))
  | .tString => pthen (visit_string p input) fun p' s => (p', .ok (.vString s))

/-- Element loop shared by Json::visit_tuple_1 .. visit_tuple_12: every
element except the last is scanned up to a comma (take_until), recursively
deserialized, and the comma consumed; the last element is scanned up to the
closing bracket, deserialized, and the bracket consumed.  Returns the
element values together with the remainder after the closing bracket. -/
def tupleLoop : List PrimTy → Pos → Str → Pos × PRes (List PrimVal × Str)
  | [], p, _ => (p, .ok ([], []))
  | [t], p, s =>
    pthen (take_until p s ']') fun p1 t1 =>
    pthen (deserializePrim t p1 t1.1) fun p2 v =>
    pthen (consume_expected p2 t1.2 (s2l "]")) fun p3 t2 =>
      (p3, .ok ([v], t2.2))
  | t :: tnext :: ts, p, s =>
    pthen (take_until p s ',') fun p1 t1 =>
    pthen (deserializePrim t p1 t1.1) fun p2 v =>
    pthen (consume_expected p2 t1.2 (s2l ",")) fun p3 t2 =>
    pthen (tupleLoop (tnext :: ts) p3 t2.2) fun p4 vr =>
      (p4, .ok (v :: vr.1, vr.2))

/-- Json::visit_tuple_N (N the arity): trim, consume the opening bracket,
run the element loop, then reject trailing non-whitespace after the closing
bracket. -/
def visit_tuple (tys : List PrimTy) (p : Pos) (input : Str) :
    Pos × PRes (List PrimVal) :=
  pthen (consume_whitespace p input) fun p1 pr =>
  pthen (consume_expected p1 pr.2 (s2l "[")) fun p2 t1 =>
  pthen (tupleLoop tys p2 t1.2) fun p3 vr =>
  pthen (consume_whitespace p3 vr.2) fun p4 wr =>
    match wr.2.head? with
    | some c => (p4, .err (.synErr p4.row p4.col none (some [c])))
    | none => (p4, .ok vr.1)

/-- Rust `str::replace` specialised to a single-character pattern replaced
by a string: the escaping direction of the serializer. -/
def escapeChar (t : Char) (rep : Str) : Str → Str
  | [] => []
  | c :: cs => if c = t then rep ++ escapeChar t rep cs else c :: escapeChar t rep cs

/-- Escaped body of a serialized string: backslash doubled first, then
quote escaped. -/
def escBody (s : Str) : Str :=
  escapeChar '"' (s2l "\\\"") (escapeChar '\\' (s2l "\\\\") s)

/-- serialize::Json::encode_string — escape backslash first, then quote,
and wrap the result in quotes. -/
def encode_string (s : Str) : Str := '"' :: (escBody s ++ ['"'])

/-- Serializer output for each primitive value: `null`, `true`/`false`,
canonical decimal text, or quoted escaped text (serialize::Json's
visit_unit, visit_bool, the integer visits, visit_char and visit_string). -/
def serializePrim : PrimVal → Str
  | .vUnit => s2l "null"
  | .vBool b => if b then s2l "true" else s2l "false"
  | .vInt _ v => intToString v
  | .vChar c => encode_string [c]
  | .vString s => encode_string s

/-- Join serialized fragments with a comma and a single space, with no
trailing separator (the `", "` joins in serialize::Json). -/
def joinComma : List Str → Str
  | [] => []
  | [x] => x
  | x :: y :: rest => x ++ s2l ", " ++ joinComma (y :: rest)

/-- Text between the brackets of a serialized tuple, including the closing
bracket. -/
def innerText (vs : List PrimVal) : Str :=
  joinComma (vs.map serializePrim) ++ [']']

/-- serialize::Json::visit_tuple_N — bracketed comma-space-joined elements. -/
def serializeTupleVals (vs : List PrimVal) : Str := '[' :: innerText vs

/-- serialize::Json::visit_array — bracketed comma-space-joined elements of
a dynamic-length slice. -/
def visit_array (vs : List PrimVal) : Str :=
  '[' :: (joinComma (vs.map serializePrim) ++ [']'])

/-- Cursor advance demanded by the specification: each consumed newline
moves to the next row at column 1, every other consumed character moves one
column right. -/
def specAdvance (p : Pos) : Str → Pos
  | [] => p
  | c :: cs => specAdvance (if c = '\n' then ⟨p.row + 1, 1⟩ else ⟨p.row, p.col + 1⟩) cs

/-- All characters occupy a single UTF-8 byte (ASCII-range input). -/
def asciiStr (s : Str) : Prop := ∀ c ∈ s, c.utf8Size = 1

/-- Well-formed values for the round-trip statement: integers within their
type's bounds, characters and string content in the single-byte range. -/
def PrimVal.wf : PrimVal → Prop
  | .vInt k v => k.lo ≤ v ∧ v ≤ k.hi
  | .vChar c => c.utf8Size = 1
  | .vString s => asciiStr s
  | _ => True

instance : DecidablePred PrimVal.wf := fun v => by
  cases v <;> simp only [PrimVal.wf, asciiStr] <;> infer_instance

/-- Formulation of the specified tuple wire format independent of
joinComma: bracketed elements interspersed with comma-space. -/
def specTupleFormat (vs : List PrimVal) : Str :=
  s2l "[" ++ (List.intersperse (s2l ", ") (vs.map serializePrim)).flatten ++ s2l "]"

/-! Concrete claim theorems (counterexamples and examples). -/

/-- C3 counterexample: decoding `01` as u8 does not fail with the claimed
leading-zero Syntax error; it succeeds and returns 1 (the code simply
delegates to the native integer parse, which accepts leading zeros). -/
theorem C3_cex :
    (deserializePrim (.tInt .u8) pos0 (s2l "01")).2 = .ok (.vInt .u8 1) ∧
    (deserializePrim (.tInt .u8) pos0 (s2l "01")).2 ≠
      .err (.synErr 1 1 (some (s2l "1-9")) (some (s2l "0"))) := by
  constructor <;> decide

/-- C3 amended: for every supported integer type, `01` decodes successfully
to 1 (leading zeros are accepted; there is no JSON-style leading-zero
rule), and `0` decodes to zero. -/
theorem C3_leading_zero_amended (k : IntKind) :
    (deserializePrim (.tInt k) pos0 (s2l "01")).2 = .ok (.vInt k 1) ∧
    (deserializePrim (.tInt k) pos0 (s2l "0")).2 = .ok (.vInt k 0) := by
  cases k <;> exact ⟨by decide, by decide⟩

/-- C5: decoding the raw text quote a backslash quote b backslash backslash
c quote yields the five-character text `a"b\c` (the decoder unescapes
backslash-quote before backslash-backslash); re-serializing that text (the
encoder escapes backslash first, then quote) reproduces the same raw bytes,
and re-decoding returns the same text. -/
theorem C5_escaping :
    (visit_string pos0 (s2l "\"a\\\"b\\\\c\"")).2 = .ok (s2l "a\"b\\c") ∧
    encode_string (s2l "a\"b\\c") = s2l "\"a\\\"b\\\\c\"" ∧
    (visit_string pos0 (encode_string (s2l "a\"b\\c"))).2 = .ok (s2l "a\"b\\c") := by
  exact ⟨by decide, by decide, by decide⟩

/-- C7 counterexample: when the first offending character of a numeric
re-scan is whitespace, the error carries that character itself — a single
space or a newline — not the word `whitespace`; and for a newline the row
is not advanced (the error for `1\n2` is still reported on row 1). -/
theorem C7_cex :
    (deserializePrim (.tInt .i8) pos0 (s2l "1 2")).2 =
      .err (.synErr 1 2 none (some [' '])) ∧
    ([' '] : Str) ≠ s2l "whitespace" ∧
    (deserializePrim (.tInt .i8) pos0 (s2l "1\n2")).2 =
      .err (.synErr 1 2 none (some ['\n'])) := by
  exact ⟨by decide, by decide, by decide⟩

/-- C8 counterexample: after visit_bool consumes `true\n`, the cursor is at
row 2 column 0 — not the 1-indexed position (2, 1) of the first unconsumed
character demanded by the claim (consume_all sets the column to the length
of the text after the last newline instead of one past it). -/
theorem C8_cex :
    visit_bool pos0 (s2l "true\n") = (⟨2, 0⟩, .ok true) ∧
    specAdvance pos0 (s2l "true\n") = ⟨2, 1⟩ ∧
    (⟨2, 0⟩ : Pos) ≠ ⟨2, 1⟩ := by
  exact ⟨by decide, by decide, by decide⟩

/-- C9 counterexample: deserializing a String from the three characters
quote, e-acute, quote panics: take_until finds the closing quote at
character index 1 and slices at byte index 1, which falls inside the
two-byte UTF-8 encoding of e-acute. -/
theorem C9_cex : (visit_string pos0 ['"', 'é', '"']).2 = .panic := by decide

/-- C1 counterexample: the round trip fails for the supported char value
e-acute — deserializing its serialization panics instead of returning the
value (the scanner slices the input at a character-enumeration index that
is not a UTF-8 byte boundary). -/
theorem C1_cex :
    (deserializePrim (PrimVal.vChar 'é').ty pos0
        (serializePrim (.vChar 'é'))).2 = .panic ∧
    (deserializePrim (PrimVal.vChar 'é').ty pos0
        (serializePrim (.vChar 'é'))).2 ≠ .ok (.vChar 'é') := by
  exact ⟨by decide, by decide⟩

/-- C4 counterexample: two parts of the claim fail.  Decoding `[1]` as a
2-tuple of u8 reports the missing-comma Syntax error at column 4, one
position past the `]` (which occupies column 3, index 2 of the input), not
at the position of the `]` itself as claimed.  And an arity mismatch does
not always produce a Syntax error: decoding `[999, 4]` as a 1-tuple of u8
hands the whole element text `999, 4` to the u8 parser, which overflows
and reports an Overflow error — not a Syntax error — refuting the
`never Overflow errors` clause. -/
theorem C4_cex :
    (visit_tuple [.tInt .u8, .tInt .u8] pos0 (s2l "[1]")).2 =
      .err (.synErr 1 4 (some [',']) (some [']'])) ∧
    (s2l "[1]")[2]? = some ']' ∧
    (4 : Nat) ≠ 3 ∧
    (visit_tuple [.tInt .u8] pos0 (s2l "[999, 4]")).2 =
      .err (.ovfErr 1 2 (some (s2l "u8"))) ∧
    Err.isSyntax (.ovfErr 1 2 (some (s2l "u8"))) = false := by
  exact ⟨by decide, by decide, by decide, by decide, by decide⟩

/-- C2 counterexample: the decimal text of 2^128 - 2^104 + 1 — one more
than f32::MAX, whose exact value is 2^128 - 2^104 — exceeds f32::MAX yet
decodes as f32 to a finite Ok value, not an Overflow error: the native
parse rounds values below the midpoint 2^128 - 2^103 down to f32::MAX. -/
theorem C2_cex :
    (visit_f32 pos0 (natToString (2 ^ 128 - 2 ^ 104 + 1))).2 =
      .ok (.fin ⟨(2 : Int) ^ 128 - 2 ^ 104 + 1, 0⟩) ∧
    ((2 : Int) ^ 128 - 2 ^ 104) < (2 : Int) ^ 128 - 2 ^ 104 + 1 := by
  exact ⟨by decide, by decide⟩



theorem utf8Size_one_of_lt (c : Char) (h : c.toNat < 128) : c.utf8Size = 1 := by
  have hle : c.val ≤ (127 : UInt32) := by
    show c.val.toBitVec ≤ _
    rw [BitVec.le_def]
    exact Nat.le_of_lt_succ h
  simp [Char.utf8Size, hle]

theorem notWs_printable (c : Char) (h1 : 33 ≤ c.toNat) (h2 : c.toNat ≤ 126) :
    rustIsWhitespace c = false := by
  simp only [rustIsWhitespace, Bool.or_eq_false_iff, Bool.and_eq_false_iff,
    beq_eq_false_iff_ne, ne_eq, decide_eq_false_iff_not, not_le]
  omega

theorem isDigit_bounds (c : Char) (h : isDigitCh c = true) :
    48 ≤ c.toNat ∧ c.toNat ≤ 57 := by
  simp only [isDigitCh, Bool.and_eq_true, decide_eq_true_eq] at h
  exact h

theorem byteSplit_zero (s : Str) : byteSplit s 0 = some ([], s) := by
  cases s <;> simp [byteSplit]

theorem byteSplit_front (a b : Str) (h : ∀ c ∈ a, c.utf8Size = 1) :
    byteSplit (a ++ b) a.length = some (a, b) := by
  induction a with
  | nil => simpa using byteSplit_zero b
  | cons c cs ih =>
    have hc : c.utf8Size = 1 := h c (by simp)
    simp only [List.cons_append, List.length_cons, byteSplit, hc, List.append_eq]
    rw [if_neg (by omega), if_pos (by omega)]
    rw [Nat.add_sub_cancel]
    rw [ih (fun x hx => h x (by simp [hx]))]

theorem cwLoop_nonWs_head (p : Pos) (c : Char) (s : Str) (n : Nat)
    (h : rustIsWhitespace c = false) : cwLoop p (c :: s) n = (p, some n) := by
  have hnl : ¬(c = '\n') := by
    intro he; subst he; simp [rustIsWhitespace] at h
  simp [cwLoop, hnl, h]

theorem cw_head_nonWs (p : Pos) (c : Char) (s : Str)
    (h : rustIsWhitespace c = false) :
    consume_whitespace p (c :: s) = (p, .ok ([], c :: s)) := by
  simp [consume_whitespace, cwLoop_nonWs_head _ _ _ _ h, byteSplit_zero]

theorem cwLoop_spaces (k : Nat) (p : Pos) (c : Char) (s : Str) (n : Nat)
    (h : rustIsWhitespace c = false) :
    cwLoop p (List.replicate k ' ' ++ c :: s) n = (⟨p.row, p.col + k⟩, some (n + k)) := by
  induction k generalizing p n with
  | zero => simpa using cwLoop_nonWs_head p c s n h
  | succ k ih =>
    simp only [List.replicate_succ, List.cons_append, cwLoop, List.append_eq]
    rw [if_neg (by decide), if_pos (by decide)]
    rw [ih ⟨p.row, p.col + 1⟩ (n + 1)]
    have h1 : p.col + 1 + k = p.col + (k + 1) := by omega
    have h2 : n + 1 + k = n + (k + 1) := by omega
    rw [h1, h2]

theorem cw_spaces (k : Nat) (p : Pos) (c : Char) (s : Str)
    (h : rustIsWhitespace c = false) :
    consume_whitespace p (List.replicate k ' ' ++ c :: s) =
      (⟨p.row, p.col + k⟩, .ok (List.replicate k ' ', c :: s)) := by
  simp only [consume_whitespace, cwLoop_spaces k p c s 0 h]
  rw [show (0 + k) = (List.replicate k ' ').length by simp]
  rw [byteSplit_front _ _ (fun x hx => by
    rw [List.eq_of_mem_replicate hx]; decide)]


theorem dropWhile_head_false {s : Str} (h : ∀ c, s.head? = some c → rustIsWhitespace c = false) :
    s.dropWhile rustIsWhitespace = s := by
  cases s with
  | nil => rfl
  | cons c cs =>
    rw [List.dropWhile_cons, if_neg]
    rw [h c rfl]
    simp

theorem rustTrim_eq_self (s : Str)
    (h1 : ∀ c, s.head? = some c → rustIsWhitespace c = false)
    (h2 : ∀ c, s.getLast? = some c → rustIsWhitespace c = false) :
    rustTrim s = s := by
  unfold rustTrim
  rw [dropWhile_head_false h1]
  rw [dropWhile_head_false (fun c hc => h2 c (by rwa [List.head?_reverse] at hc))]
  exact List.reverse_reverse s

theorem stripPre_append (pre s : Str) : stripPre (pre ++ s) pre = some s := by
  induction pre with
  | nil => cases s <;> rfl
  | cons c cs ih => simp [stripPre, ih]

theorem take_expected_pre (p : Pos) (pre s : Str) :
    take_expected p (pre ++ s) pre = (p, .ok (pre, s)) := by
  simp [take_expected, stripPre_append]

theorem consume_expected_pre (p : Pos) (pre s : Str) :
    consume_expected p (pre ++ s) pre = (consume_all p pre, .ok (pre, s)) := by
  simp [consume_expected, take_expected_pre, pthen]

theorem natToStrAux_zero (f : Nat) : natToStrAux f 0 [] = [] := by
  cases f <;> simp [natToStrAux]

theorem natToStrAux_append (f : Nat) : ∀ (n : Nat) (acc : Str),
    natToStrAux f n acc = natToStrAux f n [] ++ acc := by
  induction f with
  | zero => intro n acc; simp [natToStrAux]
  | succ f ih =>
    intro n acc
    by_cases hn : n = 0
    · subst hn; simp [natToStrAux]
    · rw [natToStrAux, natToStrAux, if_neg hn, if_neg hn]
      rw [ih (n / 10) (Char.ofNat (48 + n % 10) :: acc),
          ih (n / 10) [Char.ofNat (48 + n % 10)]]
      simp

theorem natToStrAux_fuelInv : ∀ (n f1 f2 : Nat), n ≤ f1 → n ≤ f2 →
    natToStrAux f1 n [] = natToStrAux f2 n [] := by
  intro n
  induction n using Nat.strong_induction_on with
  | _ n ih =>
    intro f1 f2 h1 h2
    by_cases hn : n = 0
    · subst hn; rw [natToStrAux_zero, natToStrAux_zero]
    · cases f1 with
      | zero => omega
      | succ g1 =>
        cases f2 with
        | zero => omega
        | succ g2 =>
          rw [natToStrAux, natToStrAux, if_neg hn, if_neg hn]
          rw [natToStrAux_append, natToStrAux_append g2]
          have hlt : n / 10 < n := Nat.div_lt_self (Nat.pos_of_ne_zero hn) (by omega)
          rw [ih (n / 10) hlt g1 g2 (by omega) (by omega)]

theorem natToStrAux_step (n f : Nat) (hn : n ≠ 0) (hf : n ≤ f) :
    natToStrAux f n [] =
      natToStrAux (n / 10) (n / 10) [] ++ [Char.ofNat (48 + n % 10)] := by
  cases f with
  | zero => omega
  | succ g =>
    rw [natToStrAux, if_neg hn, natToStrAux_append]
    rw [natToStrAux_fuelInv (n / 10) g (n / 10) (by omega) le_rfl]

theorem dchar_toNat (m : Nat) (h : m < 10) : (Char.ofNat (48 + m)).toNat = 48 + m := by
  interval_cases m <;> decide

theorem dchar_isDigit (m : Nat) (h : m < 10) : isDigitCh (Char.ofNat (48 + m)) = true := by
  interval_cases m <;> decide

theorem aux_all_digits : ∀ (n f : Nat), n ≤ f →
    ∀ c ∈ natToStrAux f n [], isDigitCh c = true := by
  intro n
  induction n using Nat.strong_induction_on with
  | _ n ih =>
    intro f hf c hc
    by_cases hn : n = 0
    · subst hn; rw [natToStrAux_zero] at hc; cases hc
    · rw [natToStrAux_step n f hn hf] at hc
      rcases List.mem_append.mp hc with h | h
      · exact ih (n / 10) (Nat.div_lt_self (Nat.pos_of_ne_zero hn) (by omega))
          (n / 10) le_rfl c h
      · rw [List.mem_singleton.mp h]
        exact dchar_isDigit _ (Nat.mod_lt n (by omega))

theorem natToString_all_digits (n : Nat) :
    ∀ c ∈ natToString n, isDigitCh c = true := by
  intro c hc
  unfold natToString at hc
  by_cases hn : n = 0
  · simp [hn] at hc; rw [hc]; decide
  · rw [if_neg hn] at hc
    exact aux_all_digits n n le_rfl c hc

theorem natToString_ne_nil (n : Nat) : natToString n ≠ [] := by
  unfold natToString
  by_cases hn : n = 0
  · simp [hn]
  · rw [if_neg hn, natToStrAux_step n n hn le_rfl]
    simp

theorem digitsVal_from (xs : Str) : ∀ (a : Nat),
    List.foldl (fun a c => a * 10 + dval c) a xs =
      a * 10 ^ xs.length + digitsVal xs := by
  induction xs with
  | nil => intro a; simp [digitsVal]
  | cons c cs ih =>
    intro a
    show List.foldl _ (a * 10 + dval c) cs = _
    rw [ih (a * 10 + dval c)]
    have h2 : digitsVal (c :: cs) = dval c * 10 ^ cs.length + digitsVal cs := by
      show List.foldl _ (0 * 10 + dval c) cs = _
      rw [ih (0 * 10 + dval c)]
      ring_nf
    rw [h2]
    simp [List.length_cons]
    ring

theorem digitsVal_cons (c : Char) (cs : Str) :
    digitsVal (c :: cs) = dval c * 10 ^ cs.length + digitsVal cs := by
  show List.foldl _ (0 * 10 + dval c) cs = _
  rw [digitsVal_from cs (0 * 10 + dval c)]
  ring_nf

theorem digitsVal_append (xs ys : Str) :
    digitsVal (xs ++ ys) = digitsVal xs * 10 ^ ys.length + digitsVal ys := by
  unfold digitsVal
  rw [List.foldl_append]
  exact digitsVal_from ys _



theorem digitsVal_natToString (n : Nat) : digitsVal (natToString n) = n := by
  unfold natToString
  by_cases hn : n = 0
  · simp [hn]; decide
  · rw [if_neg hn]
    suffices h : ∀ m f, m ≤ f → digitsVal (natToStrAux f m []) = m from h n n le_rfl
    intro m
    induction m using Nat.strong_induction_on with
    | _ m ih =>
      intro f hf
      by_cases hm : m = 0
      · subst hm; rw [natToStrAux_zero]; rfl
      · rw [natToStrAux_step m f hm hf, digitsVal_append]
        rw [ih (m / 10) (Nat.div_lt_self (Nat.pos_of_ne_zero hm) (by omega)) (m / 10) le_rfl]
        have hd : (Char.ofNat (48 + m % 10)).toNat = 48 + m % 10 :=
          dchar_toNat _ (Nat.mod_lt m (by omega))
        simp [digitsVal, dval, hd]
        omega

theorem ppLoop_ok : ∀ (ds : Str) (hi acc : Int),
    (∀ c ∈ ds, isDigitCh c = true) → 0 ≤ acc →
    acc * 10 ^ ds.length + (digitsVal ds : Int) ≤ hi →
    ppLoop hi acc ds = .ok (acc * 10 ^ ds.length + (digitsVal ds : Int)) := by
  intro ds
  induction ds with
  | nil => intro hi acc _ _ _; simp [ppLoop, digitsVal]
  | cons c cs ih =>
    intro hi acc hdig hacc hle
    have hc : isDigitCh c = true := hdig c (by simp)
    rw [ppLoop, if_pos hc]
    have harith : (acc * 10 + (dval c : Int)) * 10 ^ cs.length
        + (digitsVal cs : Int) = acc * 10 ^ (c :: cs).length + (digitsVal (c :: cs) : Int) := by
      rw [digitsVal_cons c cs]
      push_cast
      simp [List.length_cons]
      ring
    have hacc' : 0 ≤ acc * 10 + (dval c : Int) := by positivity
    have hle' : (acc * 10 + (dval c : Int)) * 10 ^ cs.length
        + (digitsVal cs : Int) ≤ hi := by rw [harith]; exact hle
    have hnotgt : ¬(acc * 10 + (dval c : Int) > hi) := by
      have h1 : (0 : Int) < 10 ^ cs.length := pow_pos (by norm_num) _
      nlinarith [Int.ofNat_nonneg (digitsVal cs)]
    rw [if_neg hnotgt]
    rw [ih hi _ (fun x hx => hdig x (by simp [hx])) hacc' hle']
    rw [harith]

theorem pnLoop_ok : ∀ (ds : Str) (lo acc : Int),
    (∀ c ∈ ds, isDigitCh c = true) → acc ≤ 0 →
    lo ≤ acc * 10 ^ ds.length - (digitsVal ds : Int) →
    pnLoop lo acc ds = .ok (acc * 10 ^ ds.length - (digitsVal ds : Int)) := by
  intro ds
  induction ds with
  | nil => intro lo acc _ _ _; simp [pnLoop, digitsVal]
  | cons c cs ih =>
    intro lo acc hdig hacc hle
    have hc : isDigitCh c = true := hdig c (by simp)
    rw [pnLoop, if_pos hc]
    have harith : (acc * 10 - (dval c : Int)) * 10 ^ cs.length
        - (digitsVal cs : Int) = acc * 10 ^ (c :: cs).length - (digitsVal (c :: cs) : Int) := by
      rw [digitsVal_cons c cs]
      push_cast
      simp [List.length_cons]
      ring
    have hacc' : acc * 10 - (dval c : Int) ≤ 0 := by
      have h0 : (0 : Int) ≤ (dval c : Int) := Int.ofNat_nonneg _
      nlinarith
    have hle' : lo ≤ (acc * 10 - (dval c : Int)) * 10 ^ cs.length
        - (digitsVal cs : Int) := by rw [harith]; exact hle
    have hnotlt : ¬(acc * 10 - (dval c : Int) < lo) := by
      have h1 : (0 : Int) < 10 ^ cs.length := pow_pos (by norm_num) _
      nlinarith [Int.ofNat_nonneg (digitsVal cs)]
    rw [if_neg hnotlt]
    rw [ih lo _ (fun x hx => hdig x (by simp [hx])) hacc' hle']
    rw [harith]

theorem digit_not_sign (c : Char) (h : isDigitCh c = true) :
    c ≠ '+' ∧ c ≠ '-' := by
  have hb := isDigit_bounds c h
  constructor <;> intro he <;> subst he <;> revert hb <;> decide

theorem signed_of_neg (k : IntKind) (v : Int) (hlo : k.lo ≤ v) (hv : v < 0) :
    k.signed = true := by
  cases k <;> first
    | rfl
    | (exfalso; simp [IntKind.lo] at hlo; omega)

theorem rustParseInt_intToString (k : IntKind) (v : Int)
    (hlo : k.lo ≤ v) (hhi : v ≤ k.hi) :
    rustParseInt k.signed k.lo k.hi (intToString v) = .ok v := by
  by_cases hneg : v < 0
  · have hs : k.signed = true := signed_of_neg k v hlo hneg
    have hi2s : intToString v = '-' :: natToString v.natAbs := by
      unfold intToString; rw [if_pos hneg]
    rw [hi2s, rustParseInt]
    rw [if_neg (by
      simp only [Bool.and_eq_true, Bool.or_eq_true, decide_eq_true_eq]
      rintro ⟨_, h2⟩
      exact natToString_ne_nil v.natAbs h2)]
    rw [if_neg (by decide), if_pos (by simp [hs])]
    have hloop := pnLoop_ok (natToString v.natAbs) k.lo 0
      (natToString_all_digits v.natAbs) le_rfl
      (by
        rw [digitsVal_natToString]
        simp only [zero_mul, zero_sub]
        omega)
    rw [hloop, digitsVal_natToString]
    congr 1
    omega
  · push_neg at hneg
    have hi2s : intToString v = natToString v.natAbs := by
      unfold intToString; rw [if_neg (by omega)]
    obtain ⟨c, rest, hcr⟩ := List.exists_cons_of_ne_nil (natToString_ne_nil v.natAbs)
    have hcd : isDigitCh c = true := by
      apply natToString_all_digits v.natAbs
      rw [hcr]; simp
    have hns := digit_not_sign c hcd
    rw [hi2s, hcr, rustParseInt]
    rw [if_neg (by
      simp only [Bool.and_eq_true, Bool.or_eq_true, decide_eq_true_eq]
      rintro ⟨h1 | h1, _⟩
      · exact hns.1 h1
      · exact hns.2 h1)]
    rw [if_neg (by simp [hns.1]), if_neg (by simp [hns.2])]
    rw [← hcr]
    have hloop := ppLoop_ok (natToString v.natAbs) k.hi 0
      (natToString_all_digits v.natAbs) le_rfl
      (by
        rw [digitsVal_natToString]
        simp only [zero_mul, zero_add]
        omega)
    rw [hloop, digitsVal_natToString]
    congr 1
    omega

theorem intToString_chars (v : Int) :
    ∀ c ∈ intToString v, isDigitCh c = true ∨ c = '-' := by
  intro c hc
  unfold intToString at hc
  by_cases hneg : v < 0
  · rw [if_pos hneg] at hc
    rcases List.mem_cons.mp hc with h | h
    · right; exact h
    · left; exact natToString_all_digits _ c h
  · rw [if_neg hneg] at hc
    left; exact natToString_all_digits _ c hc

theorem numChar_nonWs (c : Char) (h : isDigitCh c = true ∨ c = '-') :
    rustIsWhitespace c = false := by
  rcases h with h | h
  · have hb := isDigit_bounds c h
    exact notWs_printable c (by omega) (by omega)
  · subst h; decide

theorem intToString_ne_nil (v : Int) : intToString v ≠ [] := by
  unfold intToString
  by_cases hneg : v < 0
  · rw [if_pos hneg]; simp
  · rw [if_neg hneg]; exact natToString_ne_nil _

theorem intToString_trim (v : Int) : rustTrim (intToString v) = intToString v := by
  apply rustTrim_eq_self
  · intro c hc
    exact numChar_nonWs c (intToString_chars v c (List.mem_of_mem_head? hc))
  · intro c hc
    apply numChar_nonWs c
    apply intToString_chars v c
    exact List.mem_of_getLast?_eq_some hc

theorem visit_int_ok (k : IntKind) (v : Int) (p : Pos) (j : Nat)
    (hlo : k.lo ≤ v) (hhi : v ≤ k.hi) :
    visit_int k p (List.replicate j ' ' ++ intToString v) =
      (consume_all ⟨p.row, p.col + j⟩ (intToString v), .ok v) := by
  obtain ⟨c, rest, hcr⟩ := List.exists_cons_of_ne_nil (intToString_ne_nil v)
  have hnws : rustIsWhitespace c = false := by
    apply numChar_nonWs
    apply intToString_chars v
    rw [hcr]; simp
  unfold visit_int
  rw [hcr, cw_spaces j p c rest hnws]
  simp only [pthen, ← hcr]
  rw [intToString_trim, rustParseInt_intToString k v hlo hhi]



theorem tuLoop_step_neutral (u c : Char) (cs : Str) (n : Nat) (q : Bool)
    (h1 : c ≠ u) (h2 : c ≠ '"') (h3 : c ≠ '\\') :
    tuLoop u (c :: cs) n q false = tuLoop u cs (n + 1) q false := by
  rw [tuLoop]
  rw [if_neg (by simp [h1]), if_neg (by simp [h2]), if_neg (by simp [h3])]

theorem tuLoop_step_inquote (u c : Char) (cs : Str) (n : Nat)
    (h2 : c ≠ '"') (h3 : c ≠ '\\') :
    tuLoop u (c :: cs) n true false = tuLoop u cs (n + 1) true false := by
  rw [tuLoop]
  rw [if_neg (by simp), if_neg (by simp [h2]), if_neg (by simp [h3])]

theorem tuLoop_step_quote (u : Char) (cs : Str) (n : Nat) (q : Bool)
    (h : '"' = u → q = true) :
    tuLoop u ('"' :: cs) n q false = tuLoop u cs (n + 1) (!q) false := by
  rw [tuLoop]
  rw [if_neg (by
    rcases eq_or_ne '"' u with he | he
    · simp [he, h he]
    · simp [he])]
  rw [if_pos (by simp)]

theorem tuLoop_step_bs (u : Char) (cs : Str) (n : Nat) (q : Bool)
    (h : '\\' = u → q = true) :
    tuLoop u ('\\' :: cs) n q false = tuLoop u cs (n + 1) q true := by
  rw [tuLoop]
  rw [if_neg (by
    rcases eq_or_ne '\\' u with he | he
    · simp [he, h he]
    · simp [he])]
  rw [if_neg (by simp), if_pos (by simp)]

theorem tuLoop_step_afterbs (u c : Char) (cs : Str) (n : Nat) (q : Bool)
    (h : u = '"' ∨ q = true) :
    tuLoop u (c :: cs) n q true = tuLoop u cs (n + 1) q false := by
  rw [tuLoop]
  rw [if_neg (by
    rcases h with he | he
    · simp [he]
    · simp [he])]
  rw [if_neg (by simp), if_neg (by simp)]

theorem tuLoop_found (u : Char) (cs : Str) (n : Nat) :
    tuLoop u (u :: cs) n false false = some n := by
  rw [tuLoop, if_pos (by simp)]

theorem tuLoop_neutral (u : Char) (t : Str) :
    ∀ (r : Str) (n : Nat) (q : Bool), (∀ c ∈ t, c ≠ u ∧ c ≠ '"' ∧ c ≠ '\\') →
    tuLoop u (t ++ r) n q false = tuLoop u r (n + t.length) q false := by
  induction t with
  | nil => intro r n q _; simp
  | cons c cs ih =>
    intro r n q h
    have hc := h c (by simp)
    rw [List.cons_append, tuLoop_step_neutral u c _ n q hc.1 hc.2.1 hc.2.2]
    rw [ih r (n + 1) q (fun x hx => h x (by simp [hx]))]
    congr 1
    simp
    omega

theorem escBody_nil : escBody [] = [] := rfl

theorem escBody_cons (c : Char) (s : Str) :
    escBody (c :: s) =
      if c = '\\' then '\\' :: '\\' :: escBody s
      else if c = '"' then '\\' :: '"' :: escBody s
      else c :: escBody s := by
  unfold escBody
  by_cases h1 : c = '\\'
  · subst h1
    rw [if_pos rfl]
    show escapeChar '"' _ ('\\' :: '\\' :: escapeChar '\\' _ s) = _
    rw [escapeChar, if_neg (by decide), escapeChar, if_neg (by decide)]
  · by_cases h2 : c = '"'
    · subst h2
      rw [if_neg (by decide), if_pos rfl]
      show escapeChar '"' _ ('"' :: escapeChar '\\' _ s) = _
      rw [escapeChar, if_pos rfl]
      rfl
    · rw [if_neg h1, if_neg h2]
      rw [show escapeChar '\\' (s2l "\\\\") (c :: s) =
            c :: escapeChar '\\' (s2l "\\\\") s from by
          rw [escapeChar, if_neg h1]]
      rw [show escapeChar '"' (s2l "\\\"") (c :: escapeChar '\\' (s2l "\\\\") s) =
            c :: escapeChar '"' (s2l "\\\"") (escapeChar '\\' (s2l "\\\\") s) from by
          rw [escapeChar, if_neg h2]]

theorem tuLoop_escBody (u : Char) (s : Str) :
    ∀ (r : Str) (n : Nat) (q : Bool), (u = '"' ∨ q = true) →
    tuLoop u (escBody s ++ r) n q false =
      tuLoop u r (n + (escBody s).length) q false := by
  induction s with
  | nil => intro r n q _; simp [escBody_nil]
  | cons c cs ih =>
    intro r n q h
    rw [escBody_cons]
    by_cases h1 : c = '\\'
    · rw [if_pos h1]
      rw [List.cons_append, List.cons_append]
      rw [tuLoop_step_bs u _ n q (fun he => by
        rcases h with hu | hq
        · exact absurd (hu ▸ he) (by decide)
        · exact hq)]
      rw [tuLoop_step_afterbs u _ _ _ q h]
      rw [ih r (n + 1 + 1) q h]
      congr 1
      simp
      omega
    · by_cases h2 : c = '"'
      · rw [if_neg h1, if_pos h2]
        rw [List.cons_append, List.cons_append]
        rw [tuLoop_step_bs u _ n q (fun he => by
          rcases h with hu | hq
          · exact absurd (hu ▸ he) (by decide)
          · exact hq)]
        rw [tuLoop_step_afterbs u _ _ _ q h]
        rw [ih r (n + 1 + 1) q h]
        congr 1
        simp
        omega
      · rw [if_neg h1, if_neg h2, List.cons_append]
        rcases h with hu | hq
        · subst hu
          rw [tuLoop_step_neutral _ c _ n q (by simp [h2]) h2 h1]
          rw [ih r (n + 1) q (Or.inl rfl)]
          congr 1
          simp
          omega
        · subst hq
          rw [tuLoop_step_inquote u c _ n h2 h1]
          rw [ih r (n + 1) true (Or.inr rfl)]
          congr 1
          simp
          omega

theorem tuLoop_encoded (u : Char) (s r : Str) (n : Nat) (hu : u ≠ '"') :
    tuLoop u (encode_string s ++ r) n false false =
      tuLoop u r (n + (encode_string s).length) false false := by
  unfold encode_string
  rw [List.cons_append]
  rw [tuLoop_step_quote u _ n false (fun he => absurd he.symm hu)]
  simp only [Bool.not_false]
  rw [List.append_assoc]
  rw [tuLoop_escBody u s _ (n + 1) true (Or.inr rfl)]
  rw [List.singleton_append]
  rw [tuLoop_step_quote u r _ true (fun _ => rfl)]
  simp only [Bool.not_true]
  congr 1
  simp
  omega

theorem char_ne_of_toNat_ne {c u : Char} (h : c.toNat ≠ u.toNat) : c ≠ u := by
  intro he; exact h (by rw [he])

theorem neutralChars (c u : Char) (hu : u.toNat = 44 ∨ u.toNat = 93)
    (h1 : c.toNat ≠ 44) (h2 : c.toNat ≠ 93) (h3 : c.toNat ≠ 34) (h4 : c.toNat ≠ 92) :
    c ≠ u ∧ c ≠ '"' ∧ c ≠ '\\' := by
  refine ⟨char_ne_of_toNat_ne (by omega), ?_, ?_⟩
  · intro he; subst he; exact h3 rfl
  · intro he; subst he; exact h4 rfl

theorem tuLoop_ser (v : PrimVal) (u : Char) (r : Str) (n : Nat)
    (hu : u = ',' ∨ u = ']') :
    tuLoop u (serializePrim v ++ r) n false false =
      tuLoop u r (n + (serializePrim v).length) false false := by
  have hu34 : u.toNat = 44 ∨ u.toNat = 93 := by
    rcases hu with h | h <;> subst h
    · left; rfl
    · right; rfl
  cases v with
  | vUnit =>
    apply tuLoop_neutral
    intro c hc
    have hm : c ∈ ['n', 'u', 'l', 'l'] := hc
    fin_cases hm <;>
      exact neutralChars _ _ hu34 (by decide) (by decide) (by decide) (by decide)
  | vBool b =>
    apply tuLoop_neutral
    intro c hc
    cases b with
    | true =>
      have hm : c ∈ ['t', 'r', 'u', 'e'] := hc
      fin_cases hm <;>
        exact neutralChars _ _ hu34 (by decide) (by decide) (by decide) (by decide)
    | false =>
      have hm : c ∈ ['f', 'a', 'l', 's', 'e'] := hc
      fin_cases hm <;>
        exact neutralChars _ _ hu34 (by decide) (by decide) (by decide) (by decide)
  | vInt k x =>
    apply tuLoop_neutral
    intro c hc
    rcases intToString_chars x c hc with h | h
    · have hb := isDigit_bounds c h
      exact neutralChars _ _ hu34 (by omega) (by omega) (by omega) (by omega)
    · subst h
      exact neutralChars _ _ hu34 (by decide) (by decide) (by decide) (by decide)
  | vChar c =>
    apply tuLoop_encoded
    rcases hu with h | h <;> subst h <;> decide
  | vString s =>
    apply tuLoop_encoded
    rcases hu with h | h <;> subst h <;> decide

theorem escBody_chars (s : Str) :
    ∀ x ∈ escBody s, x ∈ s ∨ x = '\\' ∨ x = '"' := by
  induction s with
  | nil => intro x hx; cases hx
  | cons c cs ih =>
    intro x hx
    rw [escBody_cons] at hx
    by_cases h1 : c = '\\'
    · rw [if_pos h1] at hx
      rcases List.mem_cons.mp hx with h | h
      · right; left; exact h
      · rcases List.mem_cons.mp h with h | h
        · right; left; exact h
        · rcases ih x h with h' | h'
          · left; simp [h']
          · right; exact h'
    · by_cases h2 : c = '"'
      · rw [if_neg h1, if_pos h2] at hx
        rcases List.mem_cons.mp hx with h | h
        · right; left; exact h
        · rcases List.mem_cons.mp h with h | h
          · right; right; exact h
          · rcases ih x h with h' | h'
            · left; simp [h']
            · right; exact h'
      · rw [if_neg h1, if_neg h2] at hx
        rcases List.mem_cons.mp hx with h | h
        · left; simp [h]
        · rcases ih x h with h' | h'
          · left; simp [h']
          · right; exact h'

theorem ser_ascii (v : PrimVal) (hwf : v.wf) : asciiStr (serializePrim v) := by
  cases v with
  | vUnit =>
    intro c hc
    have hm : c ∈ ['n', 'u', 'l', 'l'] := hc
    fin_cases hm <;> decide
  | vBool b =>
    intro c hc
    cases b with
    | true =>
      have hm : c ∈ ['t', 'r', 'u', 'e'] := hc
      fin_cases hm <;> decide
    | false =>
      have hm : c ∈ ['f', 'a', 'l', 's', 'e'] := hc
      fin_cases hm <;> decide
  | vInt k x =>
    intro c hc
    rcases intToString_chars x c hc with h | h
    · have hb := isDigit_bounds c h
      exact utf8Size_one_of_lt c (by omega)
    · subst h; decide
  | vChar ch =>
    intro c hc
    rcases List.mem_cons.mp hc with h | h
    · subst h; decide
    · rcases List.mem_append.mp h with h' | h'
      · rcases escBody_chars [ch] c h' with h'' | h''
        · rw [List.mem_singleton.mp h'']
          exact hwf
        · rcases h'' with h'' | h'' <;> subst h'' <;> decide
      · rw [List.mem_singleton.mp h']; decide
  | vString s =>
    intro c hc
    rcases List.mem_cons.mp hc with h | h
    · subst h; decide
    · rcases List.mem_append.mp h with h' | h'
      · rcases escBody_chars s c h' with h'' | h''
        · exact hwf c h''
        · rcases h'' with h'' | h'' <;> subst h'' <;> decide
      · rw [List.mem_singleton.mp h']; decide

theorem take_until_ser_sp (j : Nat) (v : PrimVal) (u : Char) (r : Str) (p : Pos)
    (hu : u = ',' ∨ u = ']') (hascii : asciiStr (serializePrim v)) :
    take_until p ((List.replicate j ' ' ++ serializePrim v) ++ u :: r) u =
      (p, .ok (List.replicate j ' ' ++ serializePrim v, u :: r)) := by
  have hu34 : u.toNat = 44 ∨ u.toNat = 93 := by
    rcases hu with h | h <;> subst h
    · left; rfl
    · right; rfl
  unfold take_until
  rw [List.append_assoc]
  rw [tuLoop_neutral u (List.replicate j ' ') _ 0 false (fun c hc => by
    rw [List.eq_of_mem_replicate hc]
    exact neutralChars _ _ hu34 (by decide) (by decide) (by decide) (by decide))]
  rw [tuLoop_ser v u _ _ hu]
  rw [tuLoop_found]
  rw [show (0 + (List.replicate j ' ').length + (serializePrim v).length) =
        (List.replicate j ' ' ++ serializePrim v).length by simp]
  have hbs : byteSplit (List.replicate j ' ' ++ (serializePrim v ++ u :: r))
      ((List.replicate j ' ' ++ serializePrim v).length) =
      some (List.replicate j ' ' ++ serializePrim v, u :: r) := by
    rw [← List.append_assoc]
    exact byteSplit_front _ _ (fun c hc => by
      rcases List.mem_append.mp hc with h | h
      · rw [List.eq_of_mem_replicate h]; decide
      · exact hascii c h)
  show (match byteSplit (List.replicate j ' ' ++ (serializePrim v ++ u :: r))
          ((List.replicate j ' ' ++ serializePrim v).length) with
    | some ab => (p, PRes.ok ab)
    | none => (p, PRes.panic)) = _
  rw [hbs]

theorem unescapePair_skip (a b r y : Char) (X : Str) (h : y ≠ a) :
    unescapePair a b r (y :: X) = y :: unescapePair a b r X := by
  cases X with
  | nil => rfl
  | cons d rest =>
    rw [unescapePair, if_neg (by simp [h])]

theorem escBody_head_ne_quote (s : Str) :
    ∀ c, (escBody s).head? = some c → c ≠ '"' := by
  cases s with
  | nil => intro c hc; cases hc
  | cons x xs =>
    intro c hc
    rw [escBody_cons] at hc
    by_cases h1 : x = '\\'
    · rw [if_pos h1] at hc
      cases hc; decide
    · by_cases h2 : x = '"'
      · rw [if_neg h1, if_pos h2] at hc
        cases hc; decide
      · rw [if_neg h1, if_neg h2] at hc
        cases hc; exact h2

theorem unescape_escBody (s : Str) :
    unescapePair '\\' '\\' '\\' (unescapePair '\\' '"' '"' (escBody s)) = s := by
  induction s with
  | nil => rfl
  | cons c cs ih =>
    rw [escBody_cons]
    by_cases h1 : c = '\\'
    · subst h1
      rw [if_pos rfl]
      have hq : unescapePair '\\' '"' '"' ('\\' :: '\\' :: escBody cs) =
          '\\' :: '\\' :: unescapePair '\\' '"' '"' (escBody cs) := by
        rw [unescapePair, if_neg (by decide)]
        cases he : escBody cs with
        | nil => rfl
        | cons e es =>
          rw [unescapePair, if_neg (by
            have := escBody_head_ne_quote cs e (by rw [he]; rfl)
            simp [this])]
      rw [hq]
      rw [unescapePair, if_pos (by decide)]
      rw [ih]
    · by_cases h2 : c = '"'
      · subst h2
        rw [if_neg h1, if_pos rfl]
        rw [unescapePair, if_pos (by decide)]
        rw [unescapePair_skip _ _ _ _ _ (by decide)]
        rw [ih]
      · rw [if_neg h1, if_neg h2]
        rw [unescapePair_skip _ _ _ _ _ (fun he => h1 he)]
        rw [unescapePair_skip _ _ _ _ _ (fun he => h1 he)]
        rw [ih]

theorem escBody_ascii (s : Str) (hascii : asciiStr s) : asciiStr (escBody s) := by
  intro c hc
  rcases escBody_chars s c hc with h | h
  · exact hascii c h
  · rcases h with h | h <;> subst h <;> decide

theorem take_until_escBody (p : Pos) (s r : Str) (hascii : asciiStr s) :
    take_until p (escBody s ++ '"' :: r) '"' = (p, .ok (escBody s, '"' :: r)) := by
  unfold take_until
  rw [tuLoop_escBody '"' s _ 0 false (Or.inl rfl)]
  rw [tuLoop_found]
  rw [show (0 + (escBody s).length) = (escBody s).length by omega]
  show (match byteSplit (escBody s ++ '"' :: r) (escBody s).length with
    | some ab => (p, PRes.ok ab)
    | none => (p, PRes.panic)) = _
  rw [byteSplit_front _ _ (escBody_ascii s hascii)]

theorem decode_string_encoded (p : Pos) (s : Str) (hascii : asciiStr s) :
    decode_string p (encode_string s) = (p, .ok s) := by
  unfold decode_string
  rw [show encode_string s = s2l "\"" ++ (escBody s ++ '"' :: []) from rfl]
  rw [take_expected_pre]
  simp only [pthen]
  rw [take_until_escBody p s [] hascii]
  show (p, PRes.ok (unescapePair '\\' '\\' '\\' (unescapePair '\\' '"' '"' (escBody s)))) = _
  rw [unescape_escBody]

theorem encode_string_trim (s : Str) : rustTrim (encode_string s) = encode_string s := by
  apply rustTrim_eq_self
  · intro c hc
    cases hc
    decide
  · intro c hc
    rw [show encode_string s = ('"' :: escBody s) ++ ['"'] from by
      unfold encode_string; simp] at hc
    rw [List.getLast?_concat] at hc
    cases hc
    decide

theorem consume_until_escBody (p : Pos) (s r : Str) (hascii : asciiStr s) :
    consume_until p (escBody s ++ '"' :: r) '"' =
      (consume_all p (escBody s), .ok (escBody s, '"' :: r)) := by
  unfold consume_until
  rw [take_until_escBody p s r hascii]
  simp [pthen]

theorem pthen_ok {α β : Type} (p : Pos) (a : α) (f : Pos → α → Pos × PRes β) :
    pthen (p, .ok a) f = f p a := rfl

theorem visit_string_ok (p : Pos) (j : Nat) (s : Str) (hascii : asciiStr s) :
    ∃ p', visit_string p (List.replicate j ' ' ++ encode_string s) = (p', .ok s) := by
  unfold visit_string
  rw [show encode_string s = '"' :: (escBody s ++ ['"']) from rfl]
  rw [cw_spaces j p '"' _ (by decide)]
  simp only [pthen_ok]
  rw [show ('"' : Char) :: (escBody s ++ ['"']) = encode_string s from rfl]
  rw [encode_string_trim, decode_string_encoded _ s hascii]
  simp only [pthen_ok]
  rw [show encode_string s = s2l "\"" ++ (escBody s ++ '"' :: []) from rfl]
  rw [consume_expected_pre]
  simp only [pthen_ok]
  rw [consume_until_escBody _ s [] hascii]
  simp only [pthen_ok]
  rw [show ([ '"' ] : Str) = s2l "\"" ++ ([] : Str) from by decide]
  rw [consume_expected_pre]
  simp only [pthen_ok]
  exact ⟨_, rfl⟩

theorem visit_char_ok (p : Pos) (j : Nat) (c : Char) (hwf : c.utf8Size = 1) :
    ∃ p', visit_char p (List.replicate j ' ' ++ encode_string [c]) = (p', .ok c) := by
  have hasc : asciiStr [c] := by
    intro x hx
    rw [List.mem_singleton.mp hx]
    exact hwf
  unfold visit_char
  rw [show encode_string [c] = '"' :: (escBody [c] ++ ['"']) from rfl]
  rw [cw_spaces j p '"' _ (by decide)]
  simp only [pthen_ok]
  rw [show ('"' : Char) :: (escBody [c] ++ ['"']) = encode_string [c] from rfl]
  rw [encode_string_trim, decode_string_encoded _ [c] hasc]
  simp only [pthen_ok]
  rw [if_neg (by simp [utf8Len, hwf])]
  rw [show ([c] : Str).head? = some c from rfl]
  rw [show encode_string [c] = s2l "\"" ++ (escBody [c] ++ '"' :: []) from rfl]
  rw [consume_expected_pre]
  simp only [pthen_ok]
  rw [consume_until_escBody _ [c] [] hasc]
  simp only [pthen_ok]
  rw [show ([ '"' ] : Str) = s2l "\"" ++ ([] : Str) from by decide]
  rw [consume_expected_pre]
  simp only [pthen_ok]
  exact ⟨_, rfl⟩

theorem visit_unit_ok (p : Pos) (j : Nat) :
    ∃ p', visit_unit p (List.replicate j ' ' ++ s2l "null") = (p', .ok ()) := by
  unfold visit_unit
  rw [show (s2l "null") = 'n' :: s2l "ull" from rfl]
  rw [cw_spaces j p 'n' _ (by decide)]
  simp only [pthen_ok]
  rw [if_pos (by decide)]
  exact ⟨_, rfl⟩

theorem visit_bool_ok (p : Pos) (j : Nat) (b : Bool) :
    ∃ p', visit_bool p (List.replicate j ' ' ++ serializePrim (.vBool b)) =
      (p', .ok b) := by
  unfold visit_bool
  cases b with
  | true =>
    rw [show serializePrim (.vBool true) = 't' :: s2l "rue" from rfl]
    rw [cw_spaces j p 't' _ (by decide)]
    simp only [pthen_ok]
    rw [if_pos (by decide)]
    exact ⟨_, rfl⟩
  | false =>
    rw [show serializePrim (.vBool false) = 'f' :: s2l "alse" from rfl]
    rw [cw_spaces j p 'f' _ (by decide)]
    simp only [pthen_ok]
    rw [if_neg (by decide), if_pos (by decide)]
    exact ⟨_, rfl⟩

theorem deserializePrim_ok (v : PrimVal) (p : Pos) (j : Nat) (hwf : v.wf) :
    ∃ p', deserializePrim v.ty p (List.replicate j ' ' ++ serializePrim v) =
      (p', .ok v) := by
  cases v with
  | vUnit =>
    obtain ⟨p', hp⟩ := visit_unit_ok p j
    exact ⟨p', by simp only [deserializePrim, PrimVal.ty, serializePrim]; rw [hp]; rfl⟩
  | vBool b =>
    obtain ⟨p', hp⟩ := visit_bool_ok p j b
    exact ⟨p', by simp only [deserializePrim, PrimVal.ty]; rw [hp]; rfl⟩
  | vInt k x =>
    exact ⟨consume_all ⟨p.row, p.col + j⟩ (intToString x), by
      simp only [deserializePrim, PrimVal.ty, serializePrim]
      rw [visit_int_ok k x p j hwf.1 hwf.2]
      rfl⟩
  | vChar c =>
    obtain ⟨p', hp⟩ := visit_char_ok p j c hwf
    exact ⟨p', by simp only [deserializePrim, PrimVal.ty, serializePrim]; rw [hp]; rfl⟩
  | vString s =>
    obtain ⟨p', hp⟩ := visit_string_ok p j s hwf
    exact ⟨p', by simp only [deserializePrim, PrimVal.ty, serializePrim]; rw [hp]; rfl⟩

theorem innerText_single (v : PrimVal) :
    innerText [v] = serializePrim v ++ ']' :: [] := by
  unfold innerText joinComma
  rfl

theorem innerText_cons (v w : PrimVal) (rest : List PrimVal) :
    innerText (v :: w :: rest) =
      serializePrim v ++ ',' :: ' ' :: innerText (w :: rest) := by
  show joinComma (serializePrim v :: serializePrim w :: (rest.map serializePrim)) ++ [']'] = _
  rw [joinComma]
  simp [innerText, s2l]

theorem tupleLoop_ok : ∀ (vs : List PrimVal) (j : Nat) (p : Pos), vs ≠ [] →
    (∀ v ∈ vs, v.wf) →
    ∃ p', tupleLoop (vs.map PrimVal.ty) p (List.replicate j ' ' ++ innerText vs) =
      (p', .ok (vs, [])) := by
  intro vs
  induction vs with
  | nil => intro j p h _; exact absurd rfl h
  | cons v rest ih =>
    intro j p _ hwf
    cases rest with
    | nil =>
      rw [List.map_cons, List.map_nil]
      unfold tupleLoop
      rw [innerText_single, ← List.append_assoc]
      rw [take_until_ser_sp j v ']' [] p (Or.inr rfl) (ser_ascii v (hwf v (by simp)))]
      simp only [pthen_ok]
      obtain ⟨p2, hp2⟩ := deserializePrim_ok v p j (hwf v (by simp))
      rw [hp2]
      simp only [pthen_ok]
      rw [show (']' :: [] : Str) = s2l "]" ++ ([] : Str) from by decide]
      rw [consume_expected_pre]
      simp only [pthen_ok]
      exact ⟨_, rfl⟩
    | cons w rest' =>
      rw [List.map_cons, List.map_cons]
      unfold tupleLoop
      rw [innerText_cons, ← List.append_assoc]
      rw [take_until_ser_sp j v ',' _ p (Or.inl rfl) (ser_ascii v (hwf v (by simp)))]
      simp only [pthen_ok]
      obtain ⟨p2, hp2⟩ := deserializePrim_ok v p j (hwf v (by simp))
      rw [hp2]
      simp only [pthen_ok]
      rw [show (',' :: ' ' :: innerText (w :: rest') : Str) =
            s2l "," ++ (' ' :: innerText (w :: rest')) from by simp [s2l]]
      rw [consume_expected_pre]
      simp only [pthen_ok]
      rw [show (' ' :: innerText (w :: rest') : Str) =
            List.replicate 1 ' ' ++ innerText (w :: rest') from rfl]
      obtain ⟨p4, hp4⟩ := ih 1 (consume_all p2 (s2l ",")) (by simp)
        (fun x hx => hwf x (by simp [hx]))
      rw [← List.map_cons, hp4]
      simp only [pthen_ok]
      exact ⟨_, rfl⟩

theorem visit_tuple_roundtrip (vs : List PrimVal) (hne : vs ≠ [])
    (hwf : ∀ v ∈ vs, v.wf) :
    ∃ p', visit_tuple (vs.map PrimVal.ty) pos0 (serializeTupleVals vs) =
      (p', .ok vs) := by
  unfold visit_tuple serializeTupleVals
  rw [cw_head_nonWs pos0 '[' _ (by decide)]
  simp only [pthen_ok]
  rw [show ('[' :: innerText vs : Str) = s2l "[" ++ innerText vs from rfl]
  rw [consume_expected_pre]
  simp only [pthen_ok]
  rw [show (innerText vs : Str) = List.replicate 0 ' ' ++ innerText vs from rfl]
  obtain ⟨p3, hp3⟩ := tupleLoop_ok vs 0 (consume_all pos0 (s2l "[")) hne hwf
  rw [hp3]
  simp only [pthen_ok]
  exact ⟨_, rfl⟩

theorem takeWhile_append_all (f : Char → Bool) : ∀ (a b : Str),
    (∀ c ∈ a, f c = true) → (a ++ b).takeWhile f = a ++ b.takeWhile f := by
  intro a b h
  induction a with
  | nil => simp
  | cons x t ih =>
    simp only [List.cons_append, List.takeWhile_cons, h x (by simp), if_true]
    simp [ih (fun c hc => h c (by simp [hc]))]

theorem dropWhile_append_all (f : Char → Bool) : ∀ (a b : Str),
    (∀ c ∈ a, f c = true) → (a ++ b).dropWhile f = b.dropWhile f := by
  intro a b h
  induction a with
  | nil => simp
  | cons x t ih =>
    simp only [List.cons_append, List.dropWhile_cons, h x (by simp)]
    exact ih (fun c hc => h c (by simp [hc]))

theorem takeWhile_all (f : Char → Bool) (a : Str) (h : ∀ c ∈ a, f c = true) :
    a.takeWhile f = a := by
  have h2 := takeWhile_append_all f a [] h
  simpa using h2

theorem dropWhile_all (f : Char → Bool) (a : Str) (h : ∀ c ∈ a, f c = true) :
    a.dropWhile f = [] := by
  have h2 := dropWhile_append_all f a [] h
  simpa using h2

theorem natToPad_length : ∀ (k m : Nat), (natToPad k m).length = k := by
  intro k
  induction k with
  | zero => intro m; rfl
  | succ j ih => intro m; simp [natToPad, ih]

theorem natToPad_digits : ∀ (k m : Nat), ∀ c ∈ natToPad k m, isDigitCh c = true := by
  intro k
  induction k with
  | zero => intro m c hc; cases hc
  | succ j ih =>
    intro m c hc
    rw [natToPad] at hc
    rcases List.mem_append.mp hc with h | h
    · exact ih (m / 10) c h
    · rcases List.mem_singleton.mp h with rfl
      exact dchar_isDigit (m % 10) (Nat.mod_lt _ (by omega))

theorem digitsVal_natToPad : ∀ (k m : Nat), digitsVal (natToPad k m) = m % 10 ^ k := by
  intro k
  induction k with
  | zero => intro m; simp [natToPad, digitsVal, Nat.mod_one]
  | succ j ih =>
    intro m
    rw [natToPad, digitsVal_append, ih]
    have hdv : digitsVal [Char.ofNat (48 + m % 10)] = m % 10 := by
      show 0 * 10 + dval (Char.ofNat (48 + m % 10)) = m % 10
      unfold dval
      rw [dchar_toNat (m % 10) (Nat.mod_lt _ (by omega))]
      omega
    rw [hdv]
    have hmm : m % 10 ^ (j + 1) = m % 10 + 10 * (m / 10 % 10 ^ j) := by
      rw [pow_succ']
      exact Nat.mod_mul
    rw [hmm]
    simp only [List.length_singleton, pow_one]
    omega

theorem pdCore_digits (t : Str) (hne : t ≠ []) (hd : ∀ c ∈ t, isDigitCh c = true) :
    pdCore t = some ⟨(digitsVal t : Int), 0⟩ := by
  unfold pdCore
  rw [takeWhile_all isDigitCh t hd, dropWhile_all isDigitCh t hd]
  show (if t = [] then none
    else (parseExpPart []).map fun e => (⟨(digitsVal t : Int), e⟩ : DecVal)) = _
  rw [if_neg hne]
  rfl

theorem pdCore_dot (a b : Str) (hne : a ≠ []) (ha : ∀ c ∈ a, isDigitCh c = true)
    (hb : ∀ c ∈ b, isDigitCh c = true) :
    pdCore (a ++ '.' :: b) =
      some ⟨(digitsVal (a ++ b) : Int), 0 - (b.length : Int)⟩ := by
  unfold pdCore
  rw [takeWhile_append_all isDigitCh a ('.' :: b) ha,
    dropWhile_append_all isDigitCh a ('.' :: b) ha,
    List.takeWhile_cons, List.dropWhile_cons, if_neg (by decide),
    if_neg (by decide)]
  show (if (decide (a ++ [] = []) && decide (List.takeWhile isDigitCh b = [])) = true
      then none
      else Option.map
        (fun e => (⟨(digitsVal (a ++ [] ++ List.takeWhile isDigitCh b) : Int),
          e - ((List.takeWhile isDigitCh b).length : Int)⟩ : DecVal))
        (parseExpPart (List.dropWhile isDigitCh b))) =
    some ⟨(digitsVal (a ++ b) : Int), 0 - (b.length : Int)⟩
  rw [takeWhile_all isDigitCh b hb, dropWhile_all isDigitCh b hb,
    List.append_nil]
  rw [if_neg (by simp [hne])]
  rfl

theorem parseDecimal_digit_head (c : Char) (cs : Str) (hd : isDigitCh c = true) :
    parseDecimal (c :: cs) = pdCore (c :: cs) := by
  unfold parseDecimal
  split
  · next rest heq =>
    injection heq with h1 h2
    rw [h1] at hd
    exact absurd hd (by decide)
  · next rest heq =>
    injection heq with h1 h2
    rw [h1] at hd
    exact absurd hd (by decide)
  · rfl

theorem parseDecimal_neg (t : Str) :
    parseDecimal ('-' :: t) = (pdCore t).map fun d => ⟨-d.man, d.exp⟩ := by
  unfold parseDecimal
  split
  · next rest heq =>
    injection heq with h1 h2
    exact absurd h1 (by decide)
  · next rest heq =>
    injection heq with h1 h2
    rw [h2]
  · next h1 h2 =>
    exact absurd rfl (h2 t)

theorem parseDecimal_flt (d : DecVal) :
    parseDecimal (fltToString d) = some (decRead d) := by
  obtain ⟨dm, de⟩ := d
  unfold fltToString decRead
  by_cases he : 0 ≤ de
  · rw [if_pos he, if_pos he]
    set n : Int := dm * ((10 ^ de.toNat : Nat) : Int) with hn
    unfold intToString
    by_cases hneg : n < 0
    · rw [if_pos hneg, parseDecimal_neg,
        pdCore_digits (natToString n.natAbs) (natToString_ne_nil _)
          (natToString_all_digits _)]
      rw [digitsVal_natToString]
      show some (⟨-(n.natAbs : Int), 0⟩ : DecVal) = some ⟨n, 0⟩
      simp only [Option.some.injEq, DecVal.mk.injEq, and_true, true_and]
      first
      | omega
      | trivial
    · rw [if_neg hneg]
      rcases hcons : natToString n.natAbs with _ | ⟨c, cs⟩
      · exact absurd hcons (natToString_ne_nil _)
      · have hdig : isDigitCh c = true :=
          natToString_all_digits n.natAbs c (by rw [hcons]; simp)
        rw [parseDecimal_digit_head c cs hdig,
          pdCore_digits (c :: cs) (by simp)
            (by rw [← hcons]; exact natToString_all_digits _)]
        rw [← hcons, digitsVal_natToString]
        simp only [Option.some.injEq, DecVal.mk.injEq, and_true, true_and]
        first
        | omega
        | trivial
  · rw [if_neg he, if_neg he]
    set k : Nat := (-de).toNat with hk
    set m : Nat := dm.natAbs with hm
    have hdot : pdCore (natToString (m / 10 ^ k) ++ '.' :: natToPad k (m % 10 ^ k)) =
        some ⟨((m : Nat) : Int), -(k : Int)⟩ := by
      rw [pdCore_dot _ _ (natToString_ne_nil _) (natToString_all_digits _)
        (natToPad_digits k _)]
      rw [digitsVal_append, digitsVal_natToString, digitsVal_natToPad,
        natToPad_length, Nat.mod_mod_of_dvd _ dvd_rfl]
      have harith : m / 10 ^ k * 10 ^ k + m % 10 ^ k = m :=
        Nat.div_add_mod' m (10 ^ k)
      rw [harith]
      simp only [Option.some.injEq, DecVal.mk.injEq, and_true, true_and]
      first
      | omega
      | trivial
    by_cases hneg : dm < 0
    · rw [if_pos hneg]
      rw [show ((['-'] : Str) ++ natToString (m / 10 ^ k) ++
          '.' :: natToPad k (m % 10 ^ k)) =
        '-' :: (natToString (m / 10 ^ k) ++ '.' :: natToPad k (m % 10 ^ k)) from rfl]
      rw [parseDecimal_neg, hdot]
      show some (⟨-((m : Nat) : Int), -(k : Int)⟩ : DecVal) = some ⟨dm, de⟩
      simp only [Option.some.injEq, DecVal.mk.injEq, and_true, true_and]
      first
      | omega
      | trivial
    · rw [if_neg hneg, List.nil_append]
      rcases hcons : natToString (m / 10 ^ k) with _ | ⟨c, cs⟩
      · exact absurd hcons (natToString_ne_nil _)
      · have hdig : isDigitCh c = true :=
          natToString_all_digits (m / 10 ^ k) c (by rw [hcons]; simp)
        rw [List.cons_append, parseDecimal_digit_head c _ hdig,
          ← List.cons_append, ← hcons, hdot]
        simp only [Option.some.injEq, DecVal.mk.injEq, and_true, true_and]
        first
        | omega
        | trivial

theorem decRead_toQ (d : DecVal) : (decRead d).toQ = d.toQ := by
  obtain ⟨dm, de⟩ := d
  unfold decRead DecVal.toQ
  by_cases he : 0 ≤ de
  · rw [if_pos he]
    dsimp only
    push_cast
    rw [← zpow_natCast (10 : ℚ) de.toNat, Int.toNat_of_nonneg he]
    ring
  · rw [if_neg he]

theorem geInt_iff (d : DecVal) (b : Int) :
    d.geInt b = true ↔ (b : ℚ) ≤ d.toQ := by
  obtain ⟨dm, de⟩ := d
  unfold DecVal.geInt DecVal.toQ
  by_cases he : 0 ≤ de
  · rw [if_pos he]
    dsimp only
    rw [decide_eq_true_eq]
    have hq : (10 : ℚ) ^ de = ((10 ^ de.toNat : Nat) : ℚ) := by
      push_cast
      rw [← zpow_natCast (10 : ℚ) de.toNat, Int.toNat_of_nonneg he]
    rw [hq]
    constructor
    · intro h3; exact_mod_cast h3
    · intro h3; exact_mod_cast h3
  · rw [if_neg he]
    dsimp only
    have hk : (((-de).toNat : ℤ)) = -de := Int.toNat_of_nonneg (by omega)
    have hpow : (10 : ℚ) ^ de = ((10 : ℚ) ^ (-de).toNat)⁻¹ := by
      rw [← zpow_natCast (10 : ℚ) (-de).toNat, hk, ← zpow_neg, neg_neg]
    have hpos : (0 : ℚ) < (10 : ℚ) ^ (-de).toNat := by positivity
    rw [decide_eq_true_eq, hpow, ← div_eq_mul_inv, le_div_iff hpos]
    constructor
    · intro h3; exact_mod_cast h3
    · intro h3; exact_mod_cast h3

theorem leInt_iff (d : DecVal) (b : Int) :
    d.leInt b = true ↔ d.toQ ≤ (b : ℚ) := by
  obtain ⟨dm, de⟩ := d
  unfold DecVal.leInt DecVal.toQ
  by_cases he : 0 ≤ de
  · rw [if_pos he]
    dsimp only
    rw [decide_eq_true_eq]
    have hq : (10 : ℚ) ^ de = ((10 ^ de.toNat : Nat) : ℚ) := by
      push_cast
      rw [← zpow_natCast (10 : ℚ) de.toNat, Int.toNat_of_nonneg he]
    rw [hq]
    constructor
    · intro h3; exact_mod_cast h3
    · intro h3; exact_mod_cast h3
  · rw [if_neg he]
    dsimp only
    have hk : (((-de).toNat : ℤ)) = -de := Int.toNat_of_nonneg (by omega)
    have hpow : (10 : ℚ) ^ de = ((10 : ℚ) ^ (-de).toNat)⁻¹ := by
      rw [← zpow_natCast (10 : ℚ) (-de).toNat, hk, ← zpow_neg, neg_neg]
    have hpos : (0 : ℚ) < (10 : ℚ) ^ (-de).toNat := by positivity
    rw [decide_eq_true_eq, hpow, ← div_eq_mul_inv, div_le_iff hpos]
    constructor
    · intro h3; exact_mod_cast h3
    · intro h3; exact_mod_cast h3

theorem geInt_congr (d e : DecVal) (h : d.toQ = e.toQ) (b : Int) :
    d.geInt b = e.geInt b := by
  cases hd : d.geInt b <;> cases hee : e.geInt b <;> try rfl
  · have h1 : (b : ℚ) ≤ e.toQ := (geInt_iff e b).mp hee
    rw [← h] at h1
    have h2 := (geInt_iff d b).mpr h1
    rw [hd] at h2
    cases h2
  · have h1 : (b : ℚ) ≤ d.toQ := (geInt_iff d b).mp hd
    rw [h] at h1
    have h2 := (geInt_iff e b).mpr h1
    rw [hee] at h2
    cases h2

theorem leInt_congr (d e : DecVal) (h : d.toQ = e.toQ) (b : Int) :
    d.leInt b = e.leInt b := by
  cases hd : d.leInt b <;> cases hee : e.leInt b <;> try rfl
  · have h1 : e.toQ ≤ (b : ℚ) := (leInt_iff e b).mp hee
    rw [← h] at h1
    have h2 := (leInt_iff d b).mpr h1
    rw [hd] at h2
    cases h2
  · have h1 : d.toQ ≤ (b : ℚ) := (leInt_iff d b).mp hd
    rw [h] at h1
    have h2 := (leInt_iff e b).mpr h1
    rw [hee] at h2
    cases h2

theorem fltToString_chars (d : DecVal) :
    ∀ c ∈ fltToString d, isDigitCh c = true ∨ c = '-' ∨ c = '.' := by
  intro c hc
  unfold fltToString at hc
  by_cases he : 0 ≤ d.exp
  · rw [if_pos he] at hc
    rcases intToString_chars _ c hc with h | h
    · exact Or.inl h
    · exact Or.inr (Or.inl h)
  · rw [if_neg he] at hc
    rcases List.mem_append.mp hc with h1 | h1
    · rcases List.mem_append.mp h1 with h2 | h2
      · split at h2
        · rcases List.mem_singleton.mp h2 with rfl
          exact Or.inr (Or.inl rfl)
        · cases h2
      · exact Or.inl (natToString_all_digits _ c h2)
    · rcases List.mem_cons.mp h1 with rfl | h3
      · exact Or.inr (Or.inr rfl)
      · exact Or.inl (natToPad_digits _ _ c h3)

theorem fltToString_nonWs (d : DecVal) :
    ∀ c ∈ fltToString d, rustIsWhitespace c = false := by
  intro c hc
  rcases fltToString_chars d c hc with h | h | h
  · exact numChar_nonWs c (Or.inl h)
  · exact numChar_nonWs c (Or.inr h)
  · rw [h]; decide

theorem fltToString_ne_nil (d : DecVal) : fltToString d ≠ [] := by
  unfold fltToString
  by_cases he : 0 ≤ d.exp
  · rw [if_pos he]
    exact intToString_ne_nil _
  · rw [if_neg he]
    intro hemp
    rcases List.append_eq_nil.mp hemp with ⟨h1, h2⟩
    cases h2

theorem visit_f32_roundtrip (d : DecVal)
    (hge : d.geInt f32Threshold = false)
    (hle : d.leInt (-f32Threshold) = false) :
    ∃ p', visit_f32 pos0 (fltToString d) = (p', .ok (.fin (decRead d))) ∧
      (decRead d).toQ = d.toQ := by
  rcases hcons : fltToString d with _ | ⟨c, cs⟩
  · exact absurd hcons (fltToString_ne_nil d)
  · have hnws : rustIsWhitespace c = false :=
      fltToString_nonWs d c (by rw [hcons]; simp)
    have hparse : parseDecimal (c :: cs) = some (decRead d) := by
      rw [← hcons]; exact parseDecimal_flt d
    have h1 : (decRead d).geInt f32Threshold = false := by
      rw [geInt_congr (decRead d) d (decRead_toQ d)]; exact hge
    have h2 : (decRead d).leInt (-f32Threshold) = false := by
      rw [leInt_congr (decRead d) d (decRead_toQ d)]; exact hle
    have hgood : rustParseF32 (c :: cs) = .ok (.fin (decRead d)) := by
      unfold rustParseF32
      rw [hparse]
      show Except.ok (if (decRead d).geInt f32Threshold = true then Flt.inf
        else if (decRead d).leInt (-f32Threshold) = true then Flt.neginf
        else Flt.fin (decRead d)) = _
      rw [h1, h2]
      rfl
    unfold visit_f32
    rw [cw_head_nonWs pos0 c cs hnws]
    simp only [pthen_ok]
    rw [rustTrim_eq_self (c :: cs)
      (fun x hx => by cases hx; exact hnws)
      (fun x hx => fltToString_nonWs d x
        (by rw [hcons]; exact List.mem_of_getLast?_eq_some hx))]
    rw [hgood]
    exact ⟨consume_all pos0 (c :: cs), rfl, decRead_toQ d⟩

theorem visit_f64_roundtrip (d : DecVal)
    (hge : d.geInt f64Threshold = false)
    (hle : d.leInt (-f64Threshold) = false) :
    ∃ p', visit_f64 pos0 (fltToString d) = (p', .ok (.fin (decRead d))) ∧
      (decRead d).toQ = d.toQ := by
  rcases hcons : fltToString d with _ | ⟨c, cs⟩
  · exact absurd hcons (fltToString_ne_nil d)
  · have hnws : rustIsWhitespace c = false :=
      fltToString_nonWs d c (by rw [hcons]; simp)
    have hparse : parseDecimal (c :: cs) = some (decRead d) := by
      rw [← hcons]; exact parseDecimal_flt d
    have h1 : (decRead d).geInt f64Threshold = false := by
      rw [geInt_congr (decRead d) d (decRead_toQ d)]; exact hge
    have h2 : (decRead d).leInt (-f64Threshold) = false := by
      rw [leInt_congr (decRead d) d (decRead_toQ d)]; exact hle
    have hgood : rustParseF64 (c :: cs) = .ok (.fin (decRead d)) := by
      unfold rustParseF64
      rw [hparse]
      show Except.ok (if (decRead d).geInt f64Threshold = true then Flt.inf
        else if (decRead d).leInt (-f64Threshold) = true then Flt.neginf
        else Flt.fin (decRead d)) = _
      rw [h1, h2]
      rfl
    unfold visit_f64
    rw [cw_head_nonWs pos0 c cs hnws]
    simp only [pthen_ok]
    rw [rustTrim_eq_self (c :: cs)
      (fun x hx => by cases hx; exact hnws)
      (fun x hx => fltToString_nonWs d x
        (by rw [hcons]; exact List.mem_of_getLast?_eq_some hx))]
    rw [hgood]
    exact ⟨consume_all pos0 (c :: cs), rfl, decRead_toQ d⟩

/-- C1 amended: the round trip deserialize(serialize(v)) = Ok(v) holds for
every well-formed value of the embedded universe — unit, bool, every
integer type at any in-range value, chars and strings of single-byte
characters — for every tuple of arity 1 through 12 of such primitive
elements, and for finite floats: re-parsing the positional decimal
rendering (Rust float Display) of any exact decimal value strictly inside
the f32 (respectively f64) overflow thresholds returns a finite Ok value
with exactly the same rational value.  (Multi-byte char/String content
fails the round trip, see the counterexample.) -/
theorem C1_roundtrip_amended :
    (∀ (v : PrimVal), v.wf →
      ∃ p', deserializePrim v.ty pos0 (serializePrim v) = (p', .ok v)) ∧
    (∀ (vs : List PrimVal), 1 ≤ vs.length → vs.length ≤ 12 →
      (∀ v ∈ vs, v.wf) →
      ∃ p', visit_tuple (vs.map PrimVal.ty) pos0 (serializeTupleVals vs) =
        (p', .ok vs)) ∧
    (∀ d : DecVal, d.geInt f32Threshold = false →
      d.leInt (-f32Threshold) = false →
      ∃ p', visit_f32 pos0 (fltToString d) = (p', .ok (.fin (decRead d))) ∧
        (decRead d).toQ = d.toQ) ∧
    (∀ d : DecVal, d.geInt f64Threshold = false →
      d.leInt (-f64Threshold) = false →
      ∃ p', visit_f64 pos0 (fltToString d) = (p', .ok (.fin (decRead d))) ∧
        (decRead d).toQ = d.toQ) := by
  refine ⟨?_, ?_, visit_f32_roundtrip, visit_f64_roundtrip⟩
  · intro v hwf
    have h := deserializePrim_ok v pos0 0 hwf
    simpa using h
  · intro vs h1 _ hwf
    exact visit_tuple_roundtrip vs (by intro he; subst he; simp at h1) hwf

/-- Witness for C1 amended at the concrete pair (1u8, "a") and at the
representative float 1.5, whose Display text is exactly `1.5`. -/
theorem C1_roundtrip_amended_witness :
    (∃ p', visit_tuple [PrimTy.tInt .u8, PrimTy.tString] pos0
        (serializeTupleVals [.vInt .u8 1, .vString (s2l "a")]) =
      (p', .ok [.vInt .u8 1, .vString (s2l "a")])) ∧
    (∃ p', visit_f32 pos0 (fltToString ⟨15, -1⟩) =
        (p', .ok (.fin (decRead ⟨15, -1⟩))) ∧
      (decRead ⟨15, -1⟩).toQ = DecVal.toQ ⟨15, -1⟩) ∧
    fltToString ⟨15, -1⟩ = s2l "1.5" :=
  ⟨C1_roundtrip_amended.2.1 [.vInt .u8 1, .vString (s2l "a")]
      (by decide) (by decide) (by decide),
   C1_roundtrip_amended.2.2.1 ⟨15, -1⟩ (by decide) (by decide),
   by decide⟩

theorem joinComma_intersperse : ∀ xs : List Str,
    joinComma xs = (List.intersperse (s2l ", ") xs).flatten := by
  intro xs
  induction xs with
  | nil => rfl
  | cons x t ih =>
    cases t with
    | nil => simp [joinComma]
    | cons y rest =>
      rw [joinComma, List.intersperse_cons_cons, ih]
      simp

/-- C6: for every tuple of arity 1 through 12, the serializer's output is a
bracket, the serialized elements joined by exactly comma-space with no
trailing separator, and a closing bracket; in particular the pair
(1u8, "a") serializes to exactly the nine characters of the claim. -/
theorem C6_tuple_format :
    (∀ vs : List PrimVal, 1 ≤ vs.length → vs.length ≤ 12 →
      serializeTupleVals vs = specTupleFormat vs) ∧
    serializeTupleVals [.vInt .u8 1, .vString (s2l "a")] = s2l "[1, \"a\"]" := by
  constructor
  · intro vs _ _
    unfold serializeTupleVals specTupleFormat innerText
    rw [joinComma_intersperse]
    simp [s2l]
  · decide

/-- Witness for C6 at the concrete pair. -/
theorem C6_tuple_format_witness :
    serializeTupleVals [.vInt .u8 1, .vString (s2l "a")] =
      specTupleFormat [.vInt .u8 1, .vString (s2l "a")] :=
  C6_tuple_format.1 [.vInt .u8 1, .vString (s2l "a")] (by decide) (by decide)

/-- C10: the serializer's slice support — visit_array renders any list of
serializable elements as bracketed comma-space-joined text, and the empty
slice as exactly the two characters open bracket close bracket. -/
theorem C10_array_format :
    (∀ vs : List PrimVal, visit_array vs = specTupleFormat vs) ∧
    visit_array [] = s2l "[]" ∧
    visit_array [.vInt .i32 1, .vInt .i32 2, .vInt .i32 3] = s2l "[1, 2, 3]" := by
  refine ⟨fun vs => ?_, by decide, by decide⟩
  unfold visit_array specTupleFormat
  rw [joinComma_intersperse]
  simp [s2l]

theorem take_until_err_isSyntax (p : Pos) (s : Str) (u : Char) (p' : Pos) (e : Err)
    (h : take_until p s u = (p', .err e)) : e.isSyntax = true := by
  unfold take_until at h
  split at h
  · split at h
    · simp only [Prod.mk.injEq] at h
      cases h.2
    · simp only [Prod.mk.injEq] at h
      cases h.2
  · split at h <;>
    · simp only [Prod.mk.injEq] at h
      cases h.2
      rfl

theorem take_expected_err_isSyntax (p : Pos) (s exp : Str) (p' : Pos) (e : Err)
    (h : take_expected p s exp = (p', .err e)) : e.isSyntax = true := by
  unfold take_expected at h
  split at h
  · simp only [Prod.mk.injEq] at h
    cases h.2
  · split at h <;>
    · simp only [Prod.mk.injEq] at h
      cases h.2
      rfl

/-- C4 amended: decoding a one-element list as a 2-tuple reports the
missing comma as a Syntax error (expected comma, unexpected bracket) at
column 4, one past the closing bracket; decoding a three-element list as a
2-tuple reports the extra comma as a Syntax error at its column; the
structural scanners themselves (take_until, take_expected) only ever
produce Syntax errors, never Overflow; but an arity mismatch does not
always surface as a Syntax error — the scanners hand the mis-delimited
element text to the element parser, so decoding `[999, 4]` as a 1-tuple of
u8 reports an Overflow error. -/
theorem C4_structural_amended :
    (visit_tuple [.tInt .u8, .tInt .u8] pos0 (s2l "[1]")).2 =
      .err (.synErr 1 4 (some [',']) (some [']'])) ∧
    (visit_tuple [.tInt .u8, .tInt .u8] pos0 (s2l "[1, 2, 3]")).2 =
      .err (.synErr 1 6 none (some [','])) ∧
    (∀ (p : Pos) (s : Str) (u : Char) (p' : Pos) (e : Err),
      take_until p s u = (p', .err e) → e.isSyntax = true) ∧
    (∀ (p : Pos) (s exp : Str) (p' : Pos) (e : Err),
      take_expected p s exp = (p', .err e) → e.isSyntax = true) ∧
    (visit_tuple [.tInt .u8] pos0 (s2l "[999, 4]")).2 =
      .err (.ovfErr 1 2 (some (s2l "u8"))) :=
  ⟨by decide, by decide, take_until_err_isSyntax, take_expected_err_isSyntax,
   by decide⟩

/-- Witness for C4 amended: the take_until failure on the underflowing
2-tuple input is a Syntax error. -/
theorem C4_structural_amended_witness :
    Err.isSyntax (.synErr 1 4 (some [',']) (some [']'])) = true :=
  C4_structural_amended.2.2.1 ⟨1, 2⟩ (s2l "1]") ',' ⟨1, 4⟩ _ (by decide)

theorem visit_f64_overflow (s : Str) (d : DecVal)
    (hchars : ∀ c ∈ s, c.utf8Size = 1 ∧ rustIsWhitespace c = false)
    (hparse : parseDecimal s = some d) (hge : d.geInt f64Threshold = true) :
    (visit_f64 pos0 s).2 = .err (.ovfErr 1 1 (some (s2l "f64"))) := by
  cases s with
  | nil =>
    rw [show parseDecimal ([] : Str) = none from rfl] at hparse
    cases hparse
  | cons c cs =>
    have hnws : rustIsWhitespace c = false := (hchars c (by simp)).2
    have hv : rustParseF64 (c :: cs) = .ok .inf := by
      unfold rustParseF64
      rw [hparse]
      show Except.ok (if d.geInt f64Threshold = true then Flt.inf
        else if d.leInt (-f64Threshold) = true then Flt.neginf else Flt.fin d) = _
      rw [hge]
      rfl
    unfold visit_f64
    rw [cw_head_nonWs pos0 c cs hnws]
    simp only [pthen_ok]
    rw [rustTrim_eq_self (c :: cs)
      (fun x hx => by cases hx; exact hnws)
      (fun x hx => (hchars x (List.mem_of_getLast?_eq_some hx)).2)]
    rw [hv]
    rfl

/-- C2 amended: for every supported integer type, appending the digit 0 to
the canonical text of MAX (and, for signed types, of MIN) decodes to an
Overflow error at (1, 1) carrying the type's name; deserialize i8 "128"
gives Overflow{1, 1, i8}; the canonical text of f32::MAX with a 0 appended
decodes as f32 to Overflow{f32}; and as f64, any whitespace-free ASCII
decimal text whose exact value reaches the rounding threshold
2^1024 - 2^970 (from which the native parse returns infinity) decodes to
Overflow{f64}.  (A decimal value merely exceeding the float MAX but below
the threshold rounds to MAX and decodes Ok — see the counterexample.) -/
theorem C2_overflow_amended :
    (∀ k : IntKind, (deserializePrim (.tInt k) pos0 (intToString k.hi ++ ['0'])).2 =
      .err (.ovfErr 1 1 (some k.name))) ∧
    (∀ k : IntKind, k.signed = true →
      (deserializePrim (.tInt k) pos0 (intToString k.lo ++ ['0'])).2 =
        .err (.ovfErr 1 1 (some k.name))) ∧
    (deserializePrim (.tInt .i8) pos0 (s2l "128")).2 =
      .err (.ovfErr 1 1 (some (s2l "i8"))) ∧
    (visit_f32 pos0 (natToString (34028235 * 10 ^ 31) ++ ['0'])).2 =
      .err (.ovfErr 1 1 (some (s2l "f32"))) ∧
    (∀ (s : Str) (d : DecVal),
      (∀ c ∈ s, c.utf8Size = 1 ∧ rustIsWhitespace c = false) →
      parseDecimal s = some d → d.geInt f64Threshold = true →
      (visit_f64 pos0 s).2 = .err (.ovfErr 1 1 (some (s2l "f64")))) := by
  refine ⟨fun k => ?_, fun k h => ?_, by decide, by decide, visit_f64_overflow⟩
  · cases k <;> decide
  · cases k <;> first | decide | exact absurd h (by decide)

/-- Witness for C2 amended: the signed clause at i8, and the f64 clause at
the exponent text 1e309, whose value 10^309 is beyond the threshold. -/
theorem C2_overflow_amended_witness :
    (deserializePrim (.tInt .i8) pos0 (intToString IntKind.i8.lo ++ ['0'])).2 =
      .err (.ovfErr 1 1 (some IntKind.i8.name)) ∧
    (visit_f64 pos0 (s2l "1e309")).2 = .err (.ovfErr 1 1 (some (s2l "f64"))) :=
  ⟨C2_overflow_amended.2.1 .i8 (by decide),
   C2_overflow_amended.2.2.2.2 (s2l "1e309") ⟨1, 309⟩
     (by decide) (by decide) (by decide)⟩

theorem senLoop_int_scan : ∀ (ds : Str) (kind : Str) (p : Pos) (dot first : Bool)
    (c : Char) (rest : Str),
    (kind.head? = some 'i' ∨ kind.head? = some 'u') →
    (∀ x ∈ ds, isDigitCh x = true) → isDigitCh c = false →
    (c = '-' → first = false ∨ ds ≠ []) →
    senLoop kind p first dot (ds ++ c :: rest) =
      (⟨p.row, p.col + ds.length⟩,
        .synErr p.row (p.col + ds.length) none (some [c])) := by
  intro ds
  induction ds with
  | nil =>
    intro kind p dot first c rest hk hds hc hminus
    rw [List.nil_append, senLoop]
    rw [if_neg (by simp [hc])]
    rw [if_neg (by
      intro hcond
      simp only [Bool.and_eq_true, decide_eq_true_eq] at hcond
      rcases hminus hcond.1.1 with h | h
      · rw [h] at hcond
        exact Bool.false_ne_true hcond.1.2
      · exact h rfl)]
    rw [if_neg (by
      intro hcond
      simp only [Bool.and_eq_true, decide_eq_true_eq] at hcond
      rcases hk with h | h <;> rw [h] at hcond <;>
        simp at hcond)]
    rw [ite_self]
    simp
  | cons d ds' ih =>
    intro kind p dot first c rest hk hds hc hminus
    rw [List.cons_append, senLoop]
    rw [if_pos (hds d (by simp))]
    rw [ih kind ⟨p.row, p.col + 1⟩ dot false c rest hk
      (fun x hx => hds x (by simp [hx])) hc (fun _ => Or.inl rfl)]
    simp only [List.length_cons]
    have harith : p.col + 1 + ds'.length = p.col + (ds'.length + 1) := by omega
    rw [harith]

/-- C7 amended: the numeric error re-scan walks the trimmed input with
digits advancing the column, accepts a minus only as the very first
character of a signed type's input, and reports the first other character
as Syntax{unexpected: that character} at the column reached — including
whitespace characters, which are reported as themselves (a space or a
newline, with no row adjustment), not as the word `whitespace`. -/
theorem C7_rescan_amended :
    (∀ (kind : Str) (p : Pos) (ds : Str) (c : Char) (rest : Str),
      (kind.head? = some 'i' ∨ kind.head? = some 'u') →
      (∀ x ∈ ds, isDigitCh x = true) → isDigitCh c = false →
      (c = '-' → ds ≠ []) →
      (syntax_error_number p (ds ++ c :: rest) kind).2 =
        .synErr p.row (p.col + ds.length) none (some [c])) ∧
    (∀ (kind : Str) (p : Pos) (ds : Str) (c : Char) (rest : Str),
      kind.head? = some 'i' →
      (∀ x ∈ ds, isDigitCh x = true) → isDigitCh c = false →
      (syntax_error_number p ('-' :: (ds ++ c :: rest)) kind).2 =
        .synErr p.row (p.col + 1 + ds.length) none (some [c])) ∧
    (deserializePrim (.tInt .i8) pos0 (s2l "1 2")).2 =
      .err (.synErr 1 2 none (some [' '])) ∧
    (deserializePrim (.tInt .i8) pos0 (s2l "1\n2")).2 =
      .err (.synErr 1 2 none (some ['\n'])) := by
  refine ⟨?_, ?_, by decide, by decide⟩
  · intro kind p ds c rest hk hds hc hminus
    unfold syntax_error_number
    rw [senLoop_int_scan ds kind p false true c rest hk hds hc
      (fun he => Or.inr (hminus he))]
  · intro kind p ds c rest hk hds hc
    unfold syntax_error_number
    rw [senLoop]
    rw [if_neg (by decide)]
    rw [if_pos (by simp [hk])]
    rw [senLoop_int_scan ds kind ⟨p.row, p.col + 1⟩ false false c rest
      (Or.inl hk) hds hc (fun _ => Or.inl rfl)]

/-- Witness for C7 amended: the re-scan of `1.2` as u8 reports the dot at
column 2. -/
theorem C7_rescan_amended_witness :
    (syntax_error_number pos0 (['1'] ++ '.' :: ['2']) (s2l "u8")).2 =
      .synErr 1 2 none (some ['.']) :=
  C7_rescan_amended.1 (s2l "u8") pos0 ['1'] '.' ['2']
    (by decide) (by decide) (by decide) (by decide)

theorem cwLoop_pos : ∀ (s : Str) (p : Pos) (n : Nat),
    (cwLoop p s n).1 = specAdvance p (s.takeWhile rustIsWhitespace) := by
  intro s
  induction s with
  | nil => intro p n; rfl
  | cons c cs ih =>
    intro p n
    by_cases hnl : c = '\n'
    · subst hnl
      rw [cwLoop, if_pos rfl, ih]
      rw [List.takeWhile_cons, if_pos (by decide)]
      rfl
    · by_cases hws : rustIsWhitespace c = true
      · rw [cwLoop, if_neg hnl, if_pos hws, ih]
        rw [List.takeWhile_cons, if_pos hws]
        rw [specAdvance, if_neg hnl]
      · rw [cwLoop, if_neg hnl, if_neg hws]
        rw [List.takeWhile_cons, if_neg hws]
        rfl

theorem consume_whitespace_pos (p : Pos) (s : Str) :
    (consume_whitespace p s).1 = specAdvance p (s.takeWhile rustIsWhitespace) := by
  unfold consume_whitespace
  have h := cwLoop_pos s p 0
  split
  · next heq => rw [← h, heq]
  · next p' f heq =>
    rw [← h, heq]
    split <;> rfl

theorem splitNl_no_nl (s : Str) (h : ∀ c ∈ s, c ≠ '\n') : splitNl s = [s] := by
  induction s with
  | nil => rfl
  | cons c cs ih =>
    rw [splitNl, ih (fun x hx => h x (by simp [hx]))]
    show (if c = '\n' then [] :: cs :: [] else (c :: cs) :: []) = [c :: cs]
    rw [if_neg (h c (by simp))]

theorem specAdvance_no_nl : ∀ (s : Str) (p : Pos), (∀ c ∈ s, c ≠ '\n') →
    specAdvance p s = ⟨p.row, p.col + s.length⟩ := by
  intro s
  induction s with
  | nil => intro p _; rfl
  | cons c cs ih =>
    intro p h
    rw [specAdvance, if_neg (h c (by simp)), ih _ (fun x hx => h x (by simp [hx]))]
    simp only [List.length_cons, Pos.mk.injEq]
    exact ⟨trivial, by omega⟩

theorem utf8Len_ascii (s : Str) (h : asciiStr s) : utf8Len s = s.length := by
  induction s with
  | nil => rfl
  | cons c cs ih =>
    rw [show utf8Len (c :: cs) = c.utf8Size + utf8Len cs from by simp [utf8Len]]
    rw [h c (by simp), ih (fun x hx => h x (by simp [hx]))]
    simp [Nat.add_comm]

/-- C8 amended: the cursor starts at (1, 1); consume_whitespace advances it
exactly as the specification demands (one column per character, newline to
the next row's column 1); consume_all on newline-free single-byte text also
matches the specified advance; but consume_all on text containing a newline
sets the column to the length of the text after the last newline — one less
than the 1-indexed position of the next character — so after visit_bool
consumes `true\n` the cursor is (2, 0), with column 0 outside the 1-indexed
range. -/
theorem C8_cursor_amended :
    pos0 = ⟨1, 1⟩ ∧
    (∀ (p : Pos) (s : Str), (consume_whitespace p s).1 =
      specAdvance p (s.takeWhile rustIsWhitespace)) ∧
    (∀ (p : Pos) (s : Str), (∀ c ∈ s, c ≠ '\n' ∧ c.utf8Size = 1) →
      consume_all p s = specAdvance p s) ∧
    (visit_bool pos0 (s2l "true\n")).1 = ⟨2, 0⟩ := by
  refine ⟨rfl, consume_whitespace_pos, ?_, by decide⟩
  intro p s h
  unfold consume_all
  rw [splitNl_no_nl s (fun c hc => (h c hc).1)]
  rw [if_neg (by simp)]
  rw [specAdvance_no_nl s p (fun c hc => (h c hc).1)]
  simp [utf8Len_ascii s (fun c hc => (h c hc).2)]

/-- Witness for C8 amended: the newline-free clause at one character. -/
theorem C8_cursor_amended_witness :
    consume_all pos0 ['x'] = specAdvance pos0 ['x'] :=
  C8_cursor_amended.2.2.1 pos0 ['x'] (by decide)

theorem pthen_err {α β : Type} (p : Pos) (e : Err) (f : Pos → α → Pos × PRes β) :
    pthen (p, .err e) f = (p, .err e) := rfl

theorem byteSplit_ascii_le : ∀ (s : Str) (n : Nat), asciiStr s → n ≤ s.length →
    byteSplit s n = some (s.take n, s.drop n) := by
  intro s
  induction s with
  | nil =>
    intro n _ hle
    rw [Nat.le_zero.mp hle]
    exact byteSplit_zero []
  | cons c cs ih =>
    intro n hascii hle
    by_cases hn : n = 0
    · subst hn
      exact byteSplit_zero (c :: cs)
    · rw [byteSplit, if_neg hn]
      have hc : c.utf8Size = 1 := hascii c (by simp)
      rw [if_pos (by omega)]
      rw [hc]
      rw [ih (n - 1) (fun x hx => hascii x (by simp [hx])) (by simp at hle; omega)]
      match n, hn with
      | m + 1, _ => simp

theorem cwLoop_some_lt : ∀ (s : Str) (p : Pos) (n : Nat) (p' : Pos) (f : Nat),
    cwLoop p s n = (p', some f) → n ≤ f ∧ f - n < s.length := by
  intro s
  induction s with
  | nil =>
    intro p n p' f h
    rw [cwLoop] at h
    simp only [Prod.mk.injEq] at h
    cases h.2
  | cons c cs ih =>
    intro p n p' f h
    rw [cwLoop] at h
    by_cases hnl : c = '\n'
    · rw [if_pos hnl] at h
      have := ih _ _ _ _ h
      simp only [List.length_cons]
      omega
    · rw [if_neg hnl] at h
      by_cases hws : rustIsWhitespace c = true
      · rw [if_pos hws] at h
        have := ih _ _ _ _ h
        simp only [List.length_cons]
        omega
      · rw [if_neg hws] at h
        simp only [Prod.mk.injEq, Option.some.injEq] at h
        simp only [List.length_cons]
        omega

theorem tuLoop_some_lt (u : Char) : ∀ (s : Str) (n : Nat) (q b : Bool) (m : Nat),
    tuLoop u s n q b = some m → n ≤ m ∧ m - n < s.length := by
  intro s
  induction s with
  | nil =>
    intro n q b m h
    rw [tuLoop] at h
    cases h
  | cons c cs ih =>
    intro n q b m h
    rw [tuLoop] at h
    split at h
    · cases h
      simp only [List.length_cons]
      omega
    · split at h
      · have := ih _ _ _ _ h
        simp only [List.length_cons]
        omega
      · split at h
        · have := ih _ _ _ _ h
          simp only [List.length_cons]
          omega
        · have := ih _ _ _ _ h
          simp only [List.length_cons]
          omega

theorem cw_cases (p : Pos) (s : Str) (hascii : asciiStr s) :
    ∃ p' a b, consume_whitespace p s = (p', .ok (a, b)) ∧ s = a ++ b := by
  unfold consume_whitespace
  split
  · next p' heq => exact ⟨p', s, [], rfl, by simp⟩
  · next p' f heq =>
    have hlt := cwLoop_some_lt s p 0 p' f heq
    rw [byteSplit_ascii_le s f hascii (by omega)]
    exact ⟨p', s.take f, s.drop f, rfl, (List.take_append_drop f s).symm⟩

theorem stripPre_some : ∀ (s pre r : Str), stripPre s pre = some r → s = pre ++ r := by
  intro s pre
  induction pre generalizing s with
  | nil =>
    intro r h
    cases s <;> · rw [stripPre] at h; cases h; rfl
  | cons d ds ih =>
    intro r h
    cases s with
    | nil => rw [stripPre] at h; cases h
    | cons c cs =>
      rw [stripPre] at h
      split at h
      · next hcd =>
        rw [List.cons_append, hcd, ih cs r h]
      · cases h

theorem take_expected_cases (p : Pos) (s exp : Str) :
    (∃ p' e, take_expected p s exp = (p', .err e)) ∨
    (∃ p' r, take_expected p s exp = (p', .ok (exp, r)) ∧ s = exp ++ r) := by
  unfold take_expected
  split
  · next r heq => exact Or.inr ⟨p, r, rfl, stripPre_some s exp r heq⟩
  · split
    · exact Or.inl ⟨p, _, rfl⟩
    · exact Or.inl ⟨p, _, rfl⟩

theorem take_until_cases (p : Pos) (s : Str) (u : Char) (hascii : asciiStr s) :
    (∃ p' e, take_until p s u = (p', .err e)) ∨
    (∃ p' a b, take_until p s u = (p', .ok (a, b)) ∧ s = a ++ b) := by
  unfold take_until
  split
  · next m heq =>
    have hlt := tuLoop_some_lt u s 0 false false m heq
    rw [byteSplit_ascii_le s m hascii (by omega)]
    exact Or.inr ⟨p, s.take m, s.drop m, rfl, (List.take_append_drop m s).symm⟩
  · split
    · exact Or.inl ⟨_, _, rfl⟩
    · exact Or.inl ⟨_, _, rfl⟩

theorem consume_expected_cases (p : Pos) (s exp : Str) :
    (∃ p' e, consume_expected p s exp = (p', .err e)) ∨
    (∃ p' r, consume_expected p s exp = (p', .ok (exp, r)) ∧ s = exp ++ r) := by
  unfold consume_expected
  rcases take_expected_cases p s exp with ⟨p', e, heq⟩ | ⟨p', r, heq, hsp⟩
  · rw [heq, pthen_err]
    exact Or.inl ⟨p', e, rfl⟩
  · rw [heq, pthen_ok]
    exact Or.inr ⟨_, r, rfl, hsp⟩

theorem consume_until_cases (p : Pos) (s : Str) (u : Char) (hascii : asciiStr s) :
    (∃ p' e, consume_until p s u = (p', .err e)) ∨
    (∃ p' a b, consume_until p s u = (p', .ok (a, b)) ∧ s = a ++ b) := by
  unfold consume_until
  rcases take_until_cases p s u hascii with ⟨p', e, heq⟩ | ⟨p', a, b, heq, hsp⟩
  · rw [heq, pthen_err]
    exact Or.inl ⟨p', e, rfl⟩
  · rw [heq, pthen_ok]
    exact Or.inr ⟨_, a, b, rfl, hsp⟩

theorem ascii_append_left {a b : Str} (h : asciiStr (a ++ b)) : asciiStr a :=
  fun c hc => h c (List.mem_append.mpr (Or.inl hc))

theorem ascii_append_right {a b : Str} (h : asciiStr (a ++ b)) : asciiStr b :=
  fun c hc => h c (List.mem_append.mpr (Or.inr hc))

theorem mem_rustTrim (s : Str) (c : Char) (hc : c ∈ rustTrim s) : c ∈ s := by
  unfold rustTrim at hc
  rw [List.mem_reverse] at hc
  have h1 := List.dropWhile_sublist (l := (s.dropWhile rustIsWhitespace).reverse)
    (p := rustIsWhitespace)
  have h2 := h1.mem hc
  rw [List.mem_reverse] at h2
  exact (List.dropWhile_sublist (l := s) (p := rustIsWhitespace)).mem h2

theorem ascii_rustTrim {s : Str} (h : asciiStr s) : asciiStr (rustTrim s) :=
  fun c hc => h c (mem_rustTrim s c hc)

theorem decode_string_cases (p : Pos) (s : Str) (hascii : asciiStr s) :
    (∃ p' e, decode_string p s = (p', .err e)) ∨
    (∃ p' r, decode_string p s = (p', .ok r)) := by
  unfold decode_string
  rcases take_expected_cases p s (s2l "\"") with ⟨p', e, heq⟩ | ⟨p', r, heq, hsp⟩
  · rw [heq, pthen_err]
    exact Or.inl ⟨p', e, rfl⟩
  · rw [heq, pthen_ok]
    have hra : asciiStr r := ascii_append_right (hsp ▸ hascii)
    rcases take_until_cases p' r '"' hra with ⟨p2, e, heq2⟩ | ⟨p2, a, b, heq2, _⟩
    · rw [heq2, pthen_err]
      exact Or.inl ⟨p2, e, rfl⟩
    · rw [heq2, pthen_ok]
      exact Or.inr ⟨p2, _, rfl⟩

theorem visit_int_noPanic (k : IntKind) (p : Pos) (s : Str) (h : asciiStr s) :
    (visit_int k p s).2 ≠ .panic := by
  unfold visit_int
  rcases cw_cases p s h with ⟨p1, a, b, heq, hsp⟩
  rw [heq, pthen_ok]
  dsimp only
  split <;> simp

theorem visit_unit_noPanic (p : Pos) (s : Str) (h : asciiStr s) :
    (visit_unit p s).2 ≠ .panic := by
  unfold visit_unit
  rcases cw_cases p s h with ⟨p1, a, b, heq, hsp⟩
  rw [heq, pthen_ok]
  dsimp only
  split <;> simp

theorem visit_bool_noPanic (p : Pos) (s : Str) (h : asciiStr s) :
    (visit_bool p s).2 ≠ .panic := by
  unfold visit_bool
  rcases cw_cases p s h with ⟨p1, a, b, heq, hsp⟩
  rw [heq, pthen_ok]
  dsimp only
  split
  · simp
  · split <;> simp

theorem visit_f32_noPanic (p : Pos) (s : Str) (h : asciiStr s) :
    (visit_f32 p s).2 ≠ .panic := by
  unfold visit_f32
  rcases cw_cases p s h with ⟨p1, a, b, heq, hsp⟩
  rw [heq, pthen_ok]
  dsimp only
  split
  · simp
  · split <;> simp

theorem visit_f64_noPanic (p : Pos) (s : Str) (h : asciiStr s) :
    (visit_f64 p s).2 ≠ .panic := by
  unfold visit_f64
  rcases cw_cases p s h with ⟨p1, a, b, heq, hsp⟩
  rw [heq, pthen_ok]
  dsimp only
  split
  · simp
  · split <;> simp

theorem visit_string_noPanic (p : Pos) (s : Str) (h : asciiStr s) :
    (visit_string p s).2 ≠ .panic := by
  unfold visit_string
  rcases cw_cases p s h with ⟨p1, a, b, heq, hsp⟩
  rw [heq, pthen_ok]
  dsimp only
  have hb : asciiStr b := ascii_append_right (hsp ▸ h)
  rcases decode_string_cases p1 (rustTrim b) (ascii_rustTrim hb) with
    ⟨p2, e, hd⟩ | ⟨p2, r, hd⟩
  · rw [hd, pthen_err]; simp
  · rw [hd, pthen_ok]
    rcases consume_expected_cases p2 b (s2l "\"") with
      ⟨p3, e, hce⟩ | ⟨p3, r2, hce, hsp2⟩
    · rw [hce, pthen_err]; simp
    · rw [hce, pthen_ok]
      have hr2 : asciiStr r2 := ascii_append_right (hsp2 ▸ hb)
      rcases consume_until_cases p3 r2 '"' hr2 with
        ⟨p4, e, hcu⟩ | ⟨p4, a2, b2, hcu, hsp3⟩
      · rw [hcu, pthen_err]; simp
      · rw [hcu, pthen_ok]
        have hb2 : asciiStr b2 := ascii_append_right (hsp3 ▸ hr2)
        rcases consume_expected_cases p4 b2 (s2l "\"") with
          ⟨p5, e, hce2⟩ | ⟨p5, r3, hce2, hsp4⟩
        · rw [hce2, pthen_err]; simp
        · rw [hce2, pthen_ok]
          have hr3 : asciiStr r3 := ascii_append_right (hsp4 ▸ hb2)
          rcases cw_cases p5 r3 hr3 with ⟨p6, a3, b3, hcw2, _⟩
          rw [hcw2, pthen_ok]
          split <;> simp

theorem visit_char_noPanic (p : Pos) (s : Str) (h : asciiStr s) :
    (visit_char p s).2 ≠ .panic := by
  unfold visit_char
  rcases cw_cases p s h with ⟨p1, a, b, heq, hsp⟩
  rw [heq, pthen_ok]
  dsimp only
  have hb : asciiStr b := ascii_append_right (hsp ▸ h)
  rcases decode_string_cases p1 (rustTrim b) (ascii_rustTrim hb) with
    ⟨p2, e, hd⟩ | ⟨p2, r, hd⟩
  · rw [hd, pthen_err]; simp
  · rw [hd, pthen_ok]
    split
    · simp
    · split
      · simp
      · rcases consume_expected_cases p2 b (s2l "\"") with
          ⟨p3, e, hce⟩ | ⟨p3, r2, hce, hsp2⟩
        · rw [hce, pthen_err]; simp
        · rw [hce, pthen_ok]
          have hr2 : asciiStr r2 := ascii_append_right (hsp2 ▸ hb)
          rcases consume_until_cases p3 r2 '"' hr2 with
            ⟨p4, e, hcu⟩ | ⟨p4, a2, b2, hcu, hsp3⟩
          · rw [hcu, pthen_err]; simp
          · rw [hcu, pthen_ok]
            have hb2 : asciiStr b2 := ascii_append_right (hsp3 ▸ hr2)
            rcases consume_expected_cases p4 b2 (s2l "\"") with
              ⟨p5, e, hce2⟩ | ⟨p5, r3, hce2, hsp4⟩
            · rw [hce2, pthen_err]; simp
            · rw [hce2, pthen_ok]
              have hr3 : asciiStr r3 := ascii_append_right (hsp4 ▸ hb2)
              rcases cw_cases p5 r3 hr3 with ⟨p6, a3, b3, hcw2, _⟩
              rw [hcw2, pthen_ok]
              split <;> simp

theorem deserializePrim_noPanic (t : PrimTy) (p : Pos) (s : Str)
    (h : asciiStr s) : (deserializePrim t p s).2 ≠ .panic := by
  cases t with
  | tUnit =>
    have hv := visit_unit_noPanic p s h
    show (pthen (visit_unit p s) fun p' x => (p', PRes.ok PrimVal.vUnit)).2 ≠ .panic
    rcases hx : visit_unit p s with ⟨p', res⟩
    rw [hx] at hv
    cases res with
    | ok v => rw [pthen_ok]; simp
    | err e => rw [pthen_err]; simp
    | panic => exact absurd rfl hv
  | tBool =>
    have hv := visit_bool_noPanic p s h
    show (pthen (visit_bool p s) fun p' b => (p', PRes.ok (PrimVal.vBool b))).2 ≠ .panic
    rcases hx : visit_bool p s with ⟨p', res⟩
    rw [hx] at hv
    cases res with
    | ok v => rw [pthen_ok]; simp
    | err e => rw [pthen_err]; simp
    | panic => exact absurd rfl hv
  | tInt k =>
    have hv := visit_int_noPanic k p s h
    show (pthen (visit_int k p s) fun p' v => (p', PRes.ok (PrimVal.vInt k v))).2 ≠ .panic
    rcases hx : visit_int k p s with ⟨p', res⟩
    rw [hx] at hv
    cases res with
    | ok v => rw [pthen_ok]; simp
    | err e => rw [pthen_err]; simp
    | panic => exact absurd rfl hv
  | tChar =>
    have hv := visit_char_noPanic p s h
    show (pthen (visit_char p s) fun p' c => (p', PRes.ok (PrimVal.vChar c))).2 ≠ .panic
    rcases hx : visit_char p s with ⟨p', res⟩
    rw [hx] at hv
    cases res with
    | ok v => rw [pthen_ok]; simp
    | err e => rw [pthen_err]; simp
    | panic => exact absurd rfl hv
  | tString =>
    have hv := visit_string_noPanic p s h
    show (pthen (visit_string p s) fun p' t => (p', PRes.ok (PrimVal.vString t))).2 ≠ .panic
    rcases hx : visit_string p s with ⟨p', res⟩
    rw [hx] at hv
    cases res with
    | ok v => rw [pthen_ok]; simp
    | err e => rw [pthen_err]; simp
    | panic => exact absurd rfl hv

theorem tupleLoop_cases (tys : List PrimTy) (p : Pos) (s : Str)
    (h : asciiStr s) :
    (∃ p' e, tupleLoop tys p s = (p', .err e)) ∨
    (∃ p' vs r, tupleLoop tys p s = (p', .ok (vs, r)) ∧ asciiStr r) := by
  induction tys generalizing p s with
  | nil => exact Or.inr ⟨p, [], [], by simp [tupleLoop], by intro c hc; cases hc⟩
  | cons t rest ih =>
    cases rest with
    | nil =>
      simp only [tupleLoop]
      rcases take_until_cases p s ']' h with ⟨p1, e, htu⟩ | ⟨p1, a, b, htu, hsp⟩
      · rw [htu, pthen_err]
        exact Or.inl ⟨p1, e, rfl⟩
      · rw [htu, pthen_ok]
        dsimp only
        have ha : asciiStr a := ascii_append_left (hsp ▸ h)
        have hb : asciiStr b := ascii_append_right (hsp ▸ h)
        rcases hx : deserializePrim t p1 a with ⟨p2, res⟩
        cases res with
        | panic => exact absurd (by rw [hx]) (deserializePrim_noPanic t p1 a ha)
        | err e =>
          rw [pthen_err]
          exact Or.inl ⟨p2, e, rfl⟩
        | ok v =>
          rw [pthen_ok]
          rcases consume_expected_cases p2 b (s2l "]") with
            ⟨p3, e, hce⟩ | ⟨p3, r, hce, hr⟩
          · rw [hce, pthen_err]
            exact Or.inl ⟨p3, e, rfl⟩
          · rw [hce, pthen_ok]
            exact Or.inr ⟨p3, [v], r, rfl, ascii_append_right (hr ▸ hb)⟩
    | cons tnext ts =>
      simp only [tupleLoop]
      rcases take_until_cases p s ',' h with ⟨p1, e, htu⟩ | ⟨p1, a, b, htu, hsp⟩
      · rw [htu, pthen_err]
        exact Or.inl ⟨p1, e, rfl⟩
      · rw [htu, pthen_ok]
        dsimp only
        have ha : asciiStr a := ascii_append_left (hsp ▸ h)
        have hb : asciiStr b := ascii_append_right (hsp ▸ h)
        rcases hx : deserializePrim t p1 a with ⟨p2, res⟩
        cases res with
        | panic => exact absurd (by rw [hx]) (deserializePrim_noPanic t p1 a ha)
        | err e =>
          rw [pthen_err]
          exact Or.inl ⟨p2, e, rfl⟩
        | ok v =>
          rw [pthen_ok]
          rcases consume_expected_cases p2 b (s2l ",") with
            ⟨p3, e, hce⟩ | ⟨p3, r, hce, hr⟩
          · rw [hce, pthen_err]
            exact Or.inl ⟨p3, e, rfl⟩
          · rw [hce, pthen_ok]
            dsimp only
            have hrr : asciiStr r := ascii_append_right (hr ▸ hb)
            rcases ih p3 r hrr with ⟨p4, e, htl⟩ | ⟨p4, vs, r2, htl, hr2⟩
            · rw [htl, pthen_err]
              exact Or.inl ⟨p4, e, rfl⟩
            · rw [htl, pthen_ok]
              exact Or.inr ⟨p4, v :: vs, r2, rfl, hr2⟩

theorem visit_tuple_noPanic (tys : List PrimTy) (p : Pos) (s : Str)
    (h : asciiStr s) : (visit_tuple tys p s).2 ≠ .panic := by
  unfold visit_tuple
  rcases cw_cases p s h with ⟨p1, a, b, heq, hsp⟩
  rw [heq, pthen_ok]
  dsimp only
  have hb : asciiStr b := ascii_append_right (hsp ▸ h)
  rcases consume_expected_cases p1 b (s2l "[") with
    ⟨p2, e, hce⟩ | ⟨p2, r, hce, hr⟩
  · rw [hce, pthen_err]; simp
  · rw [hce, pthen_ok]
    dsimp only
    have hrr : asciiStr r := ascii_append_right (hr ▸ hb)
    rcases tupleLoop_cases tys p2 r hrr with
      ⟨p3, e, htl⟩ | ⟨p3, vs, r2, htl, hr2⟩
    · rw [htl, pthen_err]; simp
    · rw [htl, pthen_ok]
      dsimp only
      rcases cw_cases p3 r2 hr2 with ⟨p4, a2, b2, hcw2, _⟩
      rw [hcw2, pthen_ok]
      split <;> simp

/-- C9 (amended): the original claim fails on multi-byte UTF-8 input (see
the counterexample), but on inputs consisting solely of ASCII characters —
where every character-enumeration index is also a byte index — the
deserializer is panic-free: every primitive visitor, every tuple visitor,
and the float visitors return ok or err, never panic. -/
theorem C9_no_panic_amended :
    (∀ t p s, asciiStr s → (deserializePrim t p s).2 ≠ .panic) ∧
    (∀ tys p s, asciiStr s → (visit_tuple tys p s).2 ≠ .panic) ∧
    (∀ p s, asciiStr s → (visit_f32 p s).2 ≠ .panic) ∧
    (∀ p s, asciiStr s → (visit_f64 p s).2 ≠ .panic) :=
  ⟨fun t p s h => deserializePrim_noPanic t p s h,
   fun tys p s h => visit_tuple_noPanic tys p s h,
   fun p s h => visit_f32_noPanic p s h,
   fun p s h => visit_f64_noPanic p s h⟩

/-- Witness for C9 at concrete inputs: a string deserialization and a
2-tuple deserialization on ASCII input do not panic. -/
theorem C9_no_panic_amended_witness :
    (deserializePrim .tString pos0 (s2l "\"hi\"")).2 ≠ .panic ∧
    (visit_tuple [.tInt .u8, .tBool] pos0 (s2l "[1, true]")).2 ≠ .panic :=
  ⟨C9_no_panic_amended.1 .tString pos0 (s2l "\"hi\"")
     (by
       intro c hc
       have hm : c ∈ ['"', 'h', 'i', '"'] := hc
       fin_cases hm <;> decide),
   C9_no_panic_amended.2.1 [.tInt .u8, .tBool] pos0 (s2l "[1, true]")
     (by
       intro c hc
       have hm : c ∈ ['[', '1', ',', ' ', 't', 'r', 'u', 'e', ']'] := hc
       fin_cases hm <;> decide)⟩

end Shallot
